import Mathlib

/-!
Verification of the PonyGE2 genotype-to-phenotype mapper
(`src/algorithm/mapper.py`) against its natural-language specification.

The mapper decodes an integer genome into a derivation of a context-free
grammar by one of three forward strategies, and reverse-maps a derivation
tree back to a genome:

* `map_ind_from_genome`     -- the Fast-Queue strategy (deque of pending
                               `(symbol, depth)` pairs, leftmost expansion);
* `map_PI_ind_from_genome`  -- the Position-Independent strategy (production
                               queue addressed through a codon-derived mask);
* `map_tree_from_genome` / `genome_tree_map`
                            -- the Tree-Building strategy (depth-first
                               recursion over the derivation tree);
* `mapper`                  -- the dispatcher over the two inputs.

Each Python loop is embedded as a step function plus a fuel-indexed
iteration of that step; the fuel is chosen generously (and is irrelevant
to the loop's result once a halting state is reached, because iteration
stops as soon as the loop condition fails).  Machine integers are `Nat`
(the wrap counter, which starts at `-1` in the source, is an `Int`).
-/

namespace PonyGE

/-- A grammar symbol: terminal text or non-terminal name.  Mirrors the
`{"type": "T"/"NT", "symbol": text}` dictionaries of the Python grammar. -/
inductive Sym where
  | T : String → Sym
  | NT : String → Sym
deriving DecidableEq, Repr

/-- The `["type"] == "NT"` test on a symbol dictionary. -/
def Sym.isNT : Sym → Bool
  | .T _ => false
  | .NT _ => true

/-- The `["symbol"]` field of a symbol dictionary (text of a terminal,
name of a non-terminal). -/
def Sym.text : Sym → String
  | .T s => s
  | .NT s => s

/-- The read-only grammar view consumed by the mapper: start symbol,
rules (name to ordered production choices), the non-terminal name set,
and the embedded-python flag. -/
structure Grammar where
  start_rule : Sym
  rules : List (String × List (List Sym))
  non_terminals : List String
  python_mode : Bool
deriving DecidableEq, Repr

/-- Production choices of a non-terminal: `bnf_grammar.rules[name]["choices"]`
(empty when the name has no rule entry). -/
def rulesOf (g : Grammar) (nm : String) : List (List Sym) :=
  (List.lookup nm g.rules).getD []

/-- Length of the longest right-hand side over all productions of the
grammar; used to size iteration fuel. -/
def maxRhsLen (g : Grammar) : Nat :=
  g.rules.foldl (fun acc p => p.2.foldl (fun a ch => max a ch.length) acc) 0

/-- The configuration values the mapper reads from the global `params`
dictionary. -/
structure Ps where
  max_tree_depth : Nat
  max_wraps : Nat
  genome_operations : Bool
  pi_mapping : Bool
deriving DecidableEq, Repr

/-- The result shape shared by the three forward strategies (the tree slot
of the Python 7-tuple is omitted: it is `None` for the two fast strategies
and carries no field any claim consults for the tree strategy). -/
structure MapRes where
  phenotype : Option String
  genome : List Nat
  nodes : Nat
  invalid : Bool
  maxDepth : Nat
  usedCodons : Nat
deriving DecidableEq, Repr

/-! ### Fast-Queue strategy (`map_ind_from_genome`) -/

/-- Loop state of `map_ind_from_genome`: the used-input counter, the
running maximum depth, the node count, the wrap counter (starts at `-1`),
the accumulated terminal output and the deque of unexpanded
`(symbol, depth)` items. -/
structure FqSt where
  usedInput : Nat
  maxDepth : Nat
  nodes : Nat
  wraps : Int
  output : List String
  queue : List (Sym × Nat)
deriving DecidableEq, Repr

/-- One iteration of the `map_ind_from_genome` while-loop: wrap check on
the pre-pop queue, pop of the front item, maximum-depth update, then
either a terminal output append or a non-terminal expansion (children are
pushed back onto the front in original order, one codon is consumed, and
the node count grows by the number of non-terminal children, or by one
for a pure-terminal production). -/
def fqStep (g : Grammar) (genome : List Nat) (s : FqSt) : FqSt :=
  let n := genome.length
  match s.queue with
  | [] => s
  | (sym, d) :: rest =>
    let wraps :=
      if s.usedInput % n = 0 ∧ 0 < s.usedInput ∧ s.queue.any (fun it => it.1.isNT)
      then s.wraps + 1 else s.wraps
    let maxDepth := if s.maxDepth < d then d else s.maxDepth
    match sym with
    | .T t =>
      { s with wraps := wraps, maxDepth := maxDepth,
               output := s.output ++ [t], queue := rest }
    | .NT nm =>
      let choices := rulesOf g nm
      let codon := genome.getD (s.usedInput % n) 0
      let chosen := choices.getD (codon % choices.length) []
      let children := chosen.map (fun sy => (sy, d + 1))
      let ntCount := (chosen.filter Sym.isNT).length
      { usedInput := s.usedInput + 1, wraps := wraps, maxDepth := maxDepth,
        nodes := s.nodes + (if 0 < ntCount then ntCount else 1),
        output := s.output, queue := children ++ rest }

/-- The while-condition of `map_ind_from_genome`: wraps below the budget,
unexpanded symbols remain, maximum depth within the limit. -/
def fqCond (P : Ps) (s : FqSt) : Bool :=
  decide (s.wraps < (P.max_wraps : Int)) && !s.queue.isEmpty &&
    decide (s.maxDepth ≤ P.max_tree_depth)

/-- Fuel-indexed iteration of `fqStep`; stops as soon as `fqCond` fails. -/
def fqLoop (P : Ps) (g : Grammar) (genome : List Nat) : Nat → FqSt → FqSt
  | 0, s => s
  | fuel + 1, s => if fqCond P s then fqLoop P g genome fuel (fqStep g genome s) else s

/-- Initial state of the Fast-Queue loop: depth, maximum depth and node
count start at 1 for the root, wraps at `-1`, and the deque holds the
start rule at depth 1. -/
def fqInit (g : Grammar) : FqSt :=
  { usedInput := 0, maxDepth := 1, nodes := 1, wraps := -1,
    output := [], queue := [(g.start_rule, 1)] }

/-- Iteration budget for the Fast-Queue loop.  The loop expands at most
`len * (max_wraps + 1) + 1` non-terminals before the wrap budget halts it
(theorem `fq_used_le` below), each expansion enqueues at most `maxRhsLen`
items, and every iteration pops exactly one item, so this fuel dominates
the genuine iteration count. -/
def fqFuel (P : Ps) (g : Grammar) (genome : List Nat) : Nat :=
  (genome.length * (P.max_wraps + 1) + 2) * (maxRhsLen g + 2) + 4

/-- The Fast-Queue strategy `map_ind_from_genome`.  `pf` stands for the
external `python_filter` collaborator, applied only in python mode. -/
def map_ind_from_genome (P : Ps) (pf : String → String) (g : Grammar)
    (genome : List Nat) : MapRes :=
  let s := fqLoop P g genome (fqFuel P g genome) (fqInit g)
  let out := String.join s.output
  if s.queue.isEmpty then
    { phenotype := some (if g.python_mode then pf out else out),
      genome := genome, nodes := s.nodes, invalid := false,
      maxDepth := s.maxDepth, usedCodons := s.usedInput }
  else
    { phenotype := none, genome := genome, nodes := s.nodes, invalid := true,
      maxDepth := s.maxDepth, usedCodons := s.usedInput }

/-! ### Position-Independent strategy (`map_PI_ind_from_genome`) -/

/-- Loop state of `map_PI_ind_from_genome`: used-input counter (starts at
1, advances by 2), position counter (starts at 0, advances by 2), maximum
depth, node count, wrap counter, the production queue and the mask. -/
structure PiSt where
  usedInput : Nat
  position : Nat
  maxDepth : Nat
  nodes : Nat
  wraps : Int
  queue : List (Sym × Nat)
  mask : List Nat
deriving DecidableEq, Repr

/-- The mask recomputation
`[production_queue.index(NT) for NT in production_queue if NT[0]["type"] == "NT"]`:
for each non-terminal entry, the index of the *first* entry of the queue
equal to it (Python `list.index` semantics). -/
def piNewMask (q : List (Sym × Nat)) : List Nat :=
  (q.filter (fun e => e.1.isNT)).map (fun e => q.indexOf e)

/-- One iteration of the `map_PI_ind_from_genome` while-loop: wrap check
keyed on the used-input counter, mask-directed selection of the queue slot
to expand, production choice by the next codon, splice of the children
into the queue in place of the expanded slot, node-count update, and mask
recomputation. -/
def piStep (g : Grammar) (genome : List Nat) (s : PiSt) : PiSt :=
  let n := genome.length
  let wraps :=
    if s.usedInput % n = 0 ∧ 0 < s.usedInput ∧ s.queue.any (fun it => it.1.isNT)
    then s.wraps + 1 else s.wraps
  let maskIndex := s.mask.getD (genome.getD (s.position % n) 0 % s.mask.length) 0
  let item := s.queue.getD maskIndex (Sym.T "", 0)
  let maxDepth := if s.maxDepth < item.2 then item.2 else s.maxDepth
  let choices := rulesOf g item.1.text
  let codon := genome.getD (s.usedInput % n) 0
  let chosen := choices.getD (codon % choices.length) []
  let children := chosen.map (fun sy => (sy, item.2 + 1))
  let ntCount := (chosen.filter Sym.isNT).length
  let queue := s.queue.take maskIndex ++ children ++ s.queue.drop (maskIndex + 1)
  { usedInput := s.usedInput + 2, position := s.position + 2,
    maxDepth := maxDepth,
    nodes := s.nodes + (if 0 < ntCount then ntCount else 1),
    wraps := wraps, queue := queue, mask := piNewMask queue }

/-- The while-condition of `map_PI_ind_from_genome`: wraps below the
budget, mask non-empty, maximum depth within the limit. -/
def piCond (P : Ps) (s : PiSt) : Bool :=
  decide (s.wraps < (P.max_wraps : Int)) && !s.mask.isEmpty &&
    decide (s.maxDepth ≤ P.max_tree_depth)

/-- Fuel-indexed iteration of `piStep`; stops as soon as `piCond` fails. -/
def piLoop (P : Ps) (g : Grammar) (genome : List Nat) : Nat → PiSt → PiSt
  | 0, s => s
  | fuel + 1, s => if piCond P s then piLoop P g genome fuel (piStep g genome s) else s

/-- Initial state of the Position-Independent loop: used input starts at
1 (codon pairs), position at 0, the production queue holds the start rule
at depth 1, and the mask points at slot 0. -/
def piInit (g : Grammar) : PiSt :=
  { usedInput := 1, position := 0, maxDepth := 1, nodes := 1, wraps := -1,
    queue := [(g.start_rule, 1)], mask := [0] }

/-- Iteration budget for the Position-Independent loop.  With an even
genome the wrap budget never fires, so the loop runs until the depth
limit stops it; the number of derivation positions at depth at most
`max_tree_depth + 1` (hence of loop iterations) is below this
exponential bound. -/
def piFuel (P : Ps) (g : Grammar) (genome : List Nat) : Nat :=
  ((maxRhsLen g + 2) * (genome.length + 2)) ^
    (P.max_tree_depth + P.max_wraps + 6)

/-- The Position-Independent strategy `map_PI_ind_from_genome`.  The raw
output joins the `symbol` text of every remaining queue entry. -/
def map_PI_ind_from_genome (P : Ps) (pf : String → String) (g : Grammar)
    (genome : List Nat) : MapRes :=
  let s := piLoop P g genome (piFuel P g genome) (piInit g)
  let out := String.join (s.queue.map (fun e => e.1.text))
  if s.mask.isEmpty then
    { phenotype := some (if g.python_mode then pf out else out),
      genome := genome, nodes := s.nodes, invalid := false,
      maxDepth := s.maxDepth, usedCodons := s.usedInput }
  else
    { phenotype := none, genome := genome, nodes := s.nodes, invalid := true,
      maxDepth := s.maxDepth, usedCodons := s.usedInput }

/-! ### Tree-Building strategy (`map_tree_from_genome` / `genome_tree_map`) -/

/-- The state threaded through the recursion of `genome_tree_map`: the
terminal output list, genome index, node count, maximum depth and the
invalid flag.  (The per-call `depth` value travels separately, as in the
source, where the caller keeps its own `depth` local.) -/
structure MSt where
  output : List String
  index : Nat
  nodes : Nat
  maxDepth : Nat
  invalid : Bool
deriving DecidableEq, Repr

/-- The child loop of `genome_tree_map`: terminals append their text to
the output, non-terminal children are expanded by the supplied recursive
call, threading the state left to right. -/
def gtmSyms (expand : String → MSt → MSt) : List Sym → MSt → MSt
  | [], st => st
  | Sym.T t :: rest, st => gtmSyms expand rest { st with output := st.output ++ [t] }
  | Sym.NT nm :: rest, st => gtmSyms expand rest (expand nm st)

/-- The guard of `genome_tree_map`: the mapping so far is valid, codons
remain within the wrap allowance, and the depth limit has not been
breached. -/
def gtmGuard (P : Ps) (genome : List Nat) (st : MSt) : Prop :=
  st.invalid = false ∧ st.index < genome.length * (P.max_wraps + 1) ∧
    st.maxDepth ≤ P.max_tree_depth

instance (P : Ps) (genome : List Nat) (st : MSt) :
    Decidable (gtmGuard P genome st) := by
  unfold gtmGuard; infer_instance

/-- The production `genome_tree_map` selects for non-terminal `root` at
genome index `idx`: the codon at `idx mod len` reduced modulo the number
of choices. -/
def gtmChosen (g : Grammar) (genome : List Nat) (root : String) (idx : Nat) :
    List Sym :=
  let choices := rulesOf g root
  choices.getD (genome.getD (idx % genome.length) 0 % choices.length) []

/-- The tail of a `genome_tree_map` call after the children have been
processed into state `st2`: the leaf-branch compensation (`depth += 1;
nodes += 1` when the chosen production has no child whose root is a
non-terminal name), then — only while valid — the maximum-depth update
and the depth-limit check. -/
def gtmPost (P : Ps) (g : Grammar) (chosen : List Sym) (st2 : MSt)
    (depth : Nat) : MSt × Nat :=
  let ntKids := chosen.filter (fun sy => decide (sy.text ∈ g.non_terminals))
  let depth2 := if ntKids.isEmpty then depth + 1 else depth
  let st3 := if ntKids.isEmpty then { st2 with nodes := st2.nodes + 1 } else st2
  if st3.invalid = false then
    let md2 := if st3.maxDepth < depth2 then depth2 else st3.maxDepth
    ({ st3 with maxDepth := md2, invalid := decide (P.max_tree_depth < md2) }, depth2)
  else (st3, depth2)

/-- The recursive body of `genome_tree_map`, with explicit fuel bounding
the recursion depth (the source recursion is not structurally
terminating; `gtmFuel` below provably dominates the depth any guarded
call chain can reach, since every nested call strictly increases the
genome index and the guard caps the index).  Exhausted fuel returns the
same "mapping incomplete" result as a failed guard.

Mirrors the source: guard on invalid / remaining codons / depth; node and
depth increments; codon read and production selection; sequential child
processing; then the `gtmPost` tail. -/
def genome_tree_map (P : Ps) (g : Grammar) (genome : List Nat) :
    Nat → String → MSt → Nat → MSt × Nat
  | 0, _, st, d0 => ({ st with invalid := true }, d0)
  | fuel + 1, root, st, d0 =>
    if gtmGuard P genome st then
      let chosen := gtmChosen g genome root st.index
      let depth := d0 + 1
      let st1 : MSt := { st with nodes := st.nodes + 1, index := st.index + 1 }
      let st2 := gtmSyms
        (fun nm s => (genome_tree_map P g genome fuel nm s depth).1) chosen st1
      gtmPost P g chosen st2 depth
    else ({ st with invalid := true }, d0)

/-- Recursion budget for `genome_tree_map`: every nested call strictly
increases the genome index and the guard requires
`index < len * (max_wraps + 1)`, so nesting never exceeds this bound. -/
def gtmFuel (P : Ps) (genome : List Nat) : Nat :=
  genome.length * (P.max_wraps + 1) + 2

/-- The Tree-Building strategy `map_tree_from_genome`: runs the recursion
from the start symbol with output `[]`, index 0, depth 0, maximum depth 0
and node count 0, then packages the result (the phenotype is withheld
when invalid). -/
def map_tree_from_genome (P : Ps) (pf : String → String) (g : Grammar)
    (genome : List Nat) : MapRes :=
  let r := genome_tree_map P g genome (gtmFuel P genome) g.start_rule.text
    { output := [], index := 0, nodes := 0, maxDepth := 0, invalid := false } 0
  let ph0 := String.join r.1.output
  let ph := if g.python_mode then pf ph0 else ph0
  if r.1.invalid then
    { phenotype := none, genome := genome, nodes := r.1.nodes, invalid := true,
      maxDepth := r.1.maxDepth, usedCodons := r.1.index }
  else
    { phenotype := some ph, genome := genome, nodes := r.1.nodes, invalid := false,
      maxDepth := r.1.maxDepth, usedCodons := r.1.index }

/-! ### Derivation trees and the reverse mapping

`representation/tree.py` is not part of the sources under review (only the
mapper is), so the tree class and its `get_tree_info` traversal are
modelled from the specification. -/

/-- Modelled from the spec: the derivation-node data structure of
`representation/tree.py` (not under `src/`).  A node carries the symbol
text at its root, the stored codon of an expanded non-terminal, and the
ordered children (empty for terminals and unexpanded non-terminals). -/
inductive PTree where
  | node (root : String) (codon : Option Nat) (children : List PTree)
deriving Repr

/-- The five aggregates `Tree.get_tree_info` returns: reconstructed
genome, terminal output, invalid flag, maximum traversal depth (which
under-counts the forward convention by one) and node count. -/
structure TreeInfo where
  genome : List Nat
  output : List String
  invalid : Bool
  depth : Nat
  nodes : Nat
deriving DecidableEq, Repr

mutual

/-- Modelled from the spec: `Tree.get_tree_info` of
`representation/tree.py` (not under `src/`).  One pre-order traversal,
children left to right, collecting the stored codon of every expanded
non-terminal node into the genome, the text of every terminal node into
the output, a flag for unexpanded non-terminals, the running node count
and the maximum depth (one less than the forward strategies'
root-is-one convention; the dispatcher adds the missing one). -/
def get_tree_info (nts : List String) : PTree → TreeInfo
  | .node root codon children =>
    let ci := gtiList nts children
    { genome := (if root ∈ nts ∧ children.isEmpty = false then codon.toList else []) ++ ci.genome,
      output := (if root ∈ nts then [] else [root]) ++ ci.output,
      invalid := (decide (root ∈ nts) && children.isEmpty) || ci.invalid,
      depth := 1 + ci.depth,
      nodes := 1 + ci.nodes }

/-- Traversal of a child list for `get_tree_info`: concatenates genomes
and outputs in order, disjoins invalid flags, maximises depths and sums
node counts. -/
def gtiList (nts : List String) : List PTree → TreeInfo
  | [] => { genome := [], output := [], invalid := false, depth := 0, nodes := 0 }
  | t :: ts =>
    let a := get_tree_info nts t
    let b := gtiList nts ts
    { genome := a.genome ++ b.genome, output := a.output ++ b.output,
      invalid := a.invalid || b.invalid, depth := max a.depth b.depth,
      nodes := a.nodes + b.nodes }

end

/-- A tree together with the cached mapping statistics an already-mapped
individual may carry (§4.6 of the spec: "the tree already carries
complete cached statistics").  The mapper itself only ever reads the
`tree` component. -/
structure TreeWithStats where
  tree : PTree
  cachedPhenotype : Option String
  cachedInvalid : Option Bool
  cachedDepth : Option Nat
  cachedNodes : Option Nat
  cachedUsedCodons : Option Nat

/-- Python truthiness of `not x` for an optional integer local:
true when the local is `None` or `0`. -/
def pyFalsyNat : Option Nat → Bool
  | none => true
  | some k => k == 0

/-- Python truthiness of `not x` for an optional string local:
true when the local is `None` or the empty string. -/
def pyFalsyStr : Option String → Bool
  | none => true
  | some s => s == ""

/-- Python truthiness of `not x` for an optional boolean local:
true when the local is `None` or `False`. -/
def pyFalsyBool : Option Bool → Bool
  | none => true
  | some b => !b

/-- The uniform result shape of the dispatcher: the 7-tuple
`(phenotype, genome, tree, nodes, invalid, depth, used_codons)`
(the tree slot is again omitted). -/
structure MapperRes where
  phenotype : Option String
  genome : Option (List Nat)
  nodes : Option Nat
  invalid : Option Bool
  depth : Option Nat
  usedCodons : Option Nat
deriving DecidableEq, Repr

/-- The dispatcher `mapper(genome, tree)`.  `none` models the loud
failure of a precondition assertion (or of the `NameError` that reading
the undefined `_input` local would raise).  The genome-present path
copies the genome and dispatches on the two configuration flags; the
tree-present path re-derives everything from one `get_tree_info`
traversal whenever its book-keeping guard holds — and the guard tests
the result locals, all of which were just initialised to `None`, so it
always holds. -/
def mapper (P : Ps) (pf : String → String) (g : Grammar)
    (genomeArg : Option (List Nat)) (treeArg : Option TreeWithStats) :
    Option MapperRes :=
  let genomeTruthy := (genomeArg.getD []) ≠ ([] : List Nat)
  let treeTruthy := treeArg.isSome
  if ¬ (genomeTruthy ∨ treeTruthy) then none
  else if genomeTruthy ∧ treeTruthy then none
  else if genomeTruthy then
    let genome := genomeArg.getD []
    let r :=
      if P.genome_operations && !P.pi_mapping then
        map_ind_from_genome P pf g genome
      else if P.genome_operations && P.pi_mapping then
        map_PI_ind_from_genome P pf g genome
      else
        map_tree_from_genome P pf g genome
    some { phenotype := r.phenotype, genome := some r.genome,
           nodes := some r.nodes, invalid := some r.invalid,
           depth := some r.maxDepth, usedCodons := some r.usedCodons }
  else
    match treeArg with
    | none => none
    | some tw =>
      -- phenotype, nodes, invalid, depth, used_codons = None, ..., None
      if pyFalsyNat none ∨ (none : Option Bool).isNone ∨
          (pyFalsyStr none ∧ pyFalsyBool none) ∨
          pyFalsyNat none ∨ pyFalsyNat none then
        let info := get_tree_info g.non_terminals tw.tree
        some { phenotype := some (String.join info.output),
               genome := some info.genome,
               nodes := some info.nodes, invalid := some info.invalid,
               depth := some (info.depth + 1),
               usedCodons := some info.genome.length }
      else none

/-! ### Grammar well-formedness -/

/-- Coherence of one symbol with the grammar's non-terminal name set:
it is tagged `NT` exactly when its text is a registered non-terminal
name.  (The Fast-Queue strategy branches on the tag, while the
Tree-Building strategy's leaf-branch compensation looks the child's root
text up in the name set; coherence ties the two together.) -/
def WFsym (g : Grammar) (s : Sym) : Prop :=
  s.isNT = true ↔ s.text ∈ g.non_terminals

/-- A well-formed grammar view: the start rule is a non-terminal and
every symbol occurring in a production is coherent. -/
def WF (g : Grammar) : Prop :=
  g.start_rule.isNT = true ∧
    ∀ p ∈ g.rules, ∀ ch ∈ p.2, ∀ s ∈ ch, WFsym g s

instance (g : Grammar) (s : Sym) : Decidable (WFsym g s) := by
  unfold WFsym; infer_instance

instance (g : Grammar) : Decidable (WF g) := by
  unfold WF; infer_instance

/-! ### Concrete instances used by the scenarios -/

/-- The spec's concrete grammar: start symbol `S` with productions
`S → "a" S | "b"`. -/
def gAB : Grammar :=
  { start_rule := Sym.NT "S",
    rules := [("S", [[Sym.T "a", Sym.NT "S"], [Sym.T "b"]])],
    non_terminals := ["S"],
    python_mode := false }

/-- A minimal always-recursing grammar: `S → S` as its only production. -/
def gLoop : Grammar :=
  { start_rule := Sym.NT "S",
    rules := [("S", [[Sym.NT "S"]])],
    non_terminals := ["S"],
    python_mode := false }

/-- Configuration with the given depth limit and wrap budget (the two
dispatcher flags are immaterial to the strategy functions). -/
def mkPs (d w : Nat) : Ps :=
  { max_tree_depth := d, max_wraps := w,
    genome_operations := true, pi_mapping := false }

/-- A Fast-Queue loop state whose front pending item is the terminal
`"x"` (depth 2, five nodes counted so far). -/
def cexFqSt : FqSt :=
  { usedInput := 0, maxDepth := 1, nodes := 5, wraps := -1,
    output := [], queue := [(Sym.T "x", 2)] }

/-- An already-mapped individual: a complete derivation tree
(`S` expanded with codon 5 to the sole terminal child `"b"`) carrying a
full — and deliberately wrong — set of cached statistics. -/
def tw8 : TreeWithStats :=
  { tree := PTree.node "S" (some 5) [PTree.node "b" none []],
    cachedPhenotype := some "zzz", cachedInvalid := some false,
    cachedDepth := some 7, cachedNodes := some 9,
    cachedUsedCodons := some 4 }

/-! ## Claim C2 -/

/-- Claim C2 (confirmed): for the grammar `S → "a" S | "b"`, genome
`[4, 7, 2]`, `max_wraps = 2` and `max_tree_depth = 10`, the Tree-Building
strategy returns phenotype `"ab"`, node count 3, used codons 2 and
`invalid = false`. -/
theorem tree_map_concrete_scenario :
    (map_tree_from_genome (mkPs 10 2) id gAB [4, 7, 2]).phenotype = some "ab" ∧
    (map_tree_from_genome (mkPs 10 2) id gAB [4, 7, 2]).nodes = 3 ∧
    (map_tree_from_genome (mkPs 10 2) id gAB [4, 7, 2]).usedCodons = 2 ∧
    (map_tree_from_genome (mkPs 10 2) id gAB [4, 7, 2]).invalid = false := by
  decide

/-! ## Claim C4 -/

/-- Claim C4 (counterexample): popping the terminal front item `("x", 2)`
of `cexFqSt` appends its text to the output but leaves the node count at
5 — it is *not* incremented by one as the claim states (node counting in
`map_ind_from_genome` happens only in the non-terminal branch). -/
theorem fq_terminal_pop_no_node_count :
    (fqStep gAB [0] cexFqSt).output = ["x"] ∧
    (fqStep gAB [0] cexFqSt).nodes = 5 ∧ cexFqSt.nodes = 5 ∧ (5 : Nat) ≠ 5 + 1 := by
  decide

/-- Claim C4 (corrected): in the Fast-Queue strategy, each terminal
popped from the front of the pending queue appends its text to the
output and leaves the node count (and the used-input counter)
unchanged. -/
theorem fq_terminal_pop (g : Grammar) (genome : List Nat) (s : FqSt)
    (t : String) (d : Nat) (rest : List (Sym × Nat))
    (h : s.queue = (Sym.T t, d) :: rest) :
    (fqStep g genome s).output = s.output ++ [t] ∧
    (fqStep g genome s).nodes = s.nodes ∧
    (fqStep g genome s).usedInput = s.usedInput ∧
    (fqStep g genome s).queue = rest := by
  simp [fqStep, h]

/-- Witness for `fq_terminal_pop` at the concrete state `cexFqSt`. -/
theorem fq_terminal_pop_witness :
    cexFqSt.queue = (Sym.T "x", 2) :: [] ∧
    ((fqStep gAB [0] cexFqSt).output = cexFqSt.output ++ ["x"] ∧
     (fqStep gAB [0] cexFqSt).nodes = cexFqSt.nodes ∧
     (fqStep gAB [0] cexFqSt).usedInput = cexFqSt.usedInput ∧
     (fqStep gAB [0] cexFqSt).queue = []) :=
  ⟨by decide, fq_terminal_pop gAB [0] cexFqSt "x" 2 [] (by decide)⟩

/-! ## Claim C5 -/

/-- Claim C5 (code bug): after expanding `S → S S`, the production queue
holds two equal entries `(S, 2)`; the mask recomputation of
`map_PI_ind_from_genome` uses Python's `list.index`, which returns the
index of the *first* equal entry, so the mask comes out `[0, 0]` instead
of one index per non-terminal entry (`[0, 1]`), contradicting the
source's own comment ("finding the indexes of all NTs in the production
queue"). -/
theorem pi_mask_duplicate_entries :
    piNewMask [(Sym.NT "S", 2), (Sym.NT "S", 2)] = [0, 0] ∧
    ([0, 0] : List Nat) ≠ [0, 1] := by
  decide

/-! ## Claim C8 -/

/-- Claim C8 (counterexample): `tw8` carries complete cached statistics
(phenotype `"zzz"`, invalid, depth, nodes, used codons all present), yet
the dispatcher re-traverses the tree and returns the freshly computed
statistics — phenotype `"b"`, 2 nodes, 1 used codon — not the cached
ones. -/
theorem mapper_ignores_cached_stats :
    mapper (mkPs 10 2) id gAB none (some tw8) =
      some { phenotype := some "b", genome := some [5], nodes := some 2,
             invalid := some false, depth := some 3, usedCodons := some 1 } ∧
    tw8.cachedPhenotype = some "zzz" ∧ tw8.cachedInvalid = some false ∧
    tw8.cachedDepth = some 7 ∧ tw8.cachedNodes = some 9 ∧
    tw8.cachedUsedCodons = some 4 ∧
    (some "b" : Option String) ≠ some "zzz" := by
  decide

/-- Claim C8 (corrected): on the tree-present path the dispatcher always
reconstructs genome, phenotype, invalid flag, depth and node count from
one `get_tree_info` traversal — its caching guard tests result locals
that were just initialised to `None`, so it never returns cached
statistics. -/
theorem mapper_tree_path_always_recomputes (P : Ps) (pf : String → String)
    (g : Grammar) (tw : TreeWithStats) :
    mapper P pf g none (some tw) =
      some { phenotype := some (String.join (get_tree_info g.non_terminals tw.tree).output),
             genome := some (get_tree_info g.non_terminals tw.tree).genome,
             nodes := some (get_tree_info g.non_terminals tw.tree).nodes,
             invalid := some (get_tree_info g.non_terminals tw.tree).invalid,
             depth := some ((get_tree_info g.non_terminals tw.tree).depth + 1),
             usedCodons := some (get_tree_info g.non_terminals tw.tree).genome.length } := by
  rfl

/-! ## Claim C10 -/

/-- One Position-Independent step always advances the used-input counter
by exactly two. -/
theorem piStep_usedInput (g : Grammar) (genome : List Nat) (s : PiSt) :
    (piStep g genome s).usedInput = s.usedInput + 2 := rfl

/-- On an even-length genome, one Position-Independent step keeps the
used-input counter odd and never fires the wrap check. -/
theorem piStep_even_inv (g : Grammar) (genome : List Nat) (s : PiSt)
    (hn : genome.length % 2 = 0) (hu : s.usedInput % 2 = 1) :
    (piStep g genome s).usedInput % 2 = 1 ∧ (piStep g genome s).wraps = s.wraps := by
  have hfire : ¬ (s.usedInput % genome.length = 0 ∧ 0 < s.usedInput ∧
      s.queue.any (fun it => it.1.isNT) = true) := by
    rintro ⟨hmod, -, -⟩
    rcases Nat.dvd_of_mod_eq_zero hn with ⟨m, hm⟩
    rcases Nat.dvd_of_mod_eq_zero hmod with ⟨k, hk⟩
    have h2 : s.usedInput = 2 * (m * k) := by rw [hk, hm]; ring
    omega
  have hw : (piStep g genome s).wraps =
      if s.usedInput % genome.length = 0 ∧ 0 < s.usedInput ∧
          s.queue.any (fun it => it.1.isNT) = true
      then s.wraps + 1 else s.wraps := rfl
  rw [piStep_usedInput, hw, if_neg hfire]
  omega

/-- On an even-length genome, every state the Position-Independent loop
reaches has an odd used-input counter and a wrap counter still at its
initial value. -/
theorem piLoop_even_inv (P : Ps) (g : Grammar) (genome : List Nat)
    (hn : genome.length % 2 = 0) :
    ∀ (k : Nat) (s : PiSt), s.usedInput % 2 = 1 → s.wraps = -1 →
      (piLoop P g genome k s).usedInput % 2 = 1 ∧
      (piLoop P g genome k s).wraps = -1 := by
  intro k
  induction k with
  | zero => intro s hu hw; exact ⟨hu, hw⟩
  | succ k ih =>
    intro s hu hw
    rw [piLoop]
    by_cases hc : piCond P s = true
    · rw [if_pos hc]
      rcases piStep_even_inv g genome s hn hu with ⟨hu2, hw2⟩
      exact ih _ hu2 (hw2.trans hw)
    · rw [if_neg hc]; exact ⟨hu, hw⟩

/-- Claim C10 (confirmed): in `map_PI_ind_from_genome` the used-input
counter starts at 1 and advances by 2 per expansion, so at every point
of the loop on an even-length genome it is odd, the wrap counter stays
at `-1` (the `used_input % len(genome) == 0` test never holds), the
`max_wraps` budget never halts the loop — only an empty mask or the
depth limit can — and the returned used-codons count is odd. -/
theorem pi_even_genome_never_wraps (P : Ps) (pf : String → String)
    (g : Grammar) (genome : List Nat) (k : Nat)
    (hne : genome ≠ []) (hn : genome.length % 2 = 0) :
    (piLoop P g genome k (piInit g)).usedInput % 2 = 1 ∧
    (piLoop P g genome k (piInit g)).wraps = -1 ∧
    (piLoop P g genome k (piInit g)).wraps < (P.max_wraps : Int) ∧
    (piCond P (piLoop P g genome k (piInit g)) = false →
      (piLoop P g genome k (piInit g)).mask.isEmpty = true ∨
      P.max_tree_depth < (piLoop P g genome k (piInit g)).maxDepth) ∧
    (map_PI_ind_from_genome P pf g genome).usedCodons % 2 = 1 := by
  rcases piLoop_even_inv P g genome hn k (piInit g) rfl rfl with ⟨hu, hw⟩
  have hlt : (piLoop P g genome k (piInit g)).wraps < (P.max_wraps : Int) := by
    rw [hw]; omega
  refine ⟨hu, hw, hlt, ?_, ?_⟩
  · intro hc
    simp only [piCond, Bool.and_eq_true, decide_eq_true_eq, Bool.not_eq_true'] at hc
    rcases Bool.eq_false_iff.mp hc with h
    by_cases hm : (piLoop P g genome k (piInit g)).mask.isEmpty = true
    · exact Or.inl hm
    · right
      by_cases hd : (piLoop P g genome k (piInit g)).maxDepth ≤ P.max_tree_depth
      · exfalso
        apply h
        simp [hlt, hd, Bool.not_eq_true'] at hm ⊢
        exact hm
      · omega
  · rcases piLoop_even_inv P g genome hn (piFuel P g genome) (piInit g) rfl rfl
      with ⟨hu2, -⟩
    by_cases hm : (piLoop P g genome (piFuel P g genome) (piInit g)).mask.isEmpty <;>
      simp [map_PI_ind_from_genome, hm] <;> exact hu2

/-- Witness for `pi_even_genome_never_wraps` at the always-recursing
grammar, genome `[0, 0]` and three loop steps. -/
theorem pi_even_genome_never_wraps_witness :
    ([0, 0] : List Nat) ≠ [] ∧ ([0, 0] : List Nat).length % 2 = 0 ∧
    ((piLoop (mkPs 10 0) gLoop [0, 0] 3 (piInit gLoop)).usedInput % 2 = 1 ∧
     (piLoop (mkPs 10 0) gLoop [0, 0] 3 (piInit gLoop)).wraps = -1 ∧
     (piLoop (mkPs 10 0) gLoop [0, 0] 3 (piInit gLoop)).wraps <
       ((mkPs 10 0).max_wraps : Int) ∧
     (piCond (mkPs 10 0) (piLoop (mkPs 10 0) gLoop [0, 0] 3 (piInit gLoop)) = false →
       (piLoop (mkPs 10 0) gLoop [0, 0] 3 (piInit gLoop)).mask.isEmpty = true ∨
       (mkPs 10 0).max_tree_depth <
         (piLoop (mkPs 10 0) gLoop [0, 0] 3 (piInit gLoop)).maxDepth) ∧
     (map_PI_ind_from_genome (mkPs 10 0) id gLoop [0, 0]).usedCodons % 2 = 1) :=
  ⟨by decide, by decide,
   pi_even_genome_never_wraps (mkPs 10 0) id gLoop [0, 0] 3 (by decide) (by decide)⟩

/-! ## Claim C6 -/

/-- Claim C6 (confirmed): for each of the three forward strategies, the
phenotype is absent exactly when `invalid = true`, and node count,
maximum depth and used codons are always the accumulated values of the
strategy's final loop/recursion state — also in the invalid case. -/
theorem phenotype_absent_iff_invalid (P : Ps) (pf : String → String)
    (g : Grammar) (genome : List Nat) (hne : genome ≠ []) :
    ((map_ind_from_genome P pf g genome).phenotype = none ↔
      (map_ind_from_genome P pf g genome).invalid = true) ∧
    (map_ind_from_genome P pf g genome).nodes =
      (fqLoop P g genome (fqFuel P g genome) (fqInit g)).nodes ∧
    (map_ind_from_genome P pf g genome).maxDepth =
      (fqLoop P g genome (fqFuel P g genome) (fqInit g)).maxDepth ∧
    (map_ind_from_genome P pf g genome).usedCodons =
      (fqLoop P g genome (fqFuel P g genome) (fqInit g)).usedInput ∧
    ((map_PI_ind_from_genome P pf g genome).phenotype = none ↔
      (map_PI_ind_from_genome P pf g genome).invalid = true) ∧
    (map_PI_ind_from_genome P pf g genome).nodes =
      (piLoop P g genome (piFuel P g genome) (piInit g)).nodes ∧
    (map_PI_ind_from_genome P pf g genome).maxDepth =
      (piLoop P g genome (piFuel P g genome) (piInit g)).maxDepth ∧
    (map_PI_ind_from_genome P pf g genome).usedCodons =
      (piLoop P g genome (piFuel P g genome) (piInit g)).usedInput ∧
    ((map_tree_from_genome P pf g genome).phenotype = none ↔
      (map_tree_from_genome P pf g genome).invalid = true) ∧
    (map_tree_from_genome P pf g genome).nodes =
      (genome_tree_map P g genome (gtmFuel P genome) g.start_rule.text
        { output := [], index := 0, nodes := 0, maxDepth := 0, invalid := false }
        0).1.nodes ∧
    (map_tree_from_genome P pf g genome).maxDepth =
      (genome_tree_map P g genome (gtmFuel P genome) g.start_rule.text
        { output := [], index := 0, nodes := 0, maxDepth := 0, invalid := false }
        0).1.maxDepth ∧
    (map_tree_from_genome P pf g genome).usedCodons =
      (genome_tree_map P g genome (gtmFuel P genome) g.start_rule.text
        { output := [], index := 0, nodes := 0, maxDepth := 0, invalid := false }
        0).1.index := by
  refine ⟨?_, ?_, ?_, ?_, ?_, ?_, ?_, ?_, ?_, ?_, ?_, ?_⟩ <;>
    [ (by_cases h : (fqLoop P g genome (fqFuel P g genome) (fqInit g)).queue.isEmpty);
      (by_cases h : (fqLoop P g genome (fqFuel P g genome) (fqInit g)).queue.isEmpty);
      (by_cases h : (fqLoop P g genome (fqFuel P g genome) (fqInit g)).queue.isEmpty);
      (by_cases h : (fqLoop P g genome (fqFuel P g genome) (fqInit g)).queue.isEmpty);
      (by_cases h : (piLoop P g genome (piFuel P g genome) (piInit g)).mask.isEmpty);
      (by_cases h : (piLoop P g genome (piFuel P g genome) (piInit g)).mask.isEmpty);
      (by_cases h : (piLoop P g genome (piFuel P g genome) (piInit g)).mask.isEmpty);
      (by_cases h : (piLoop P g genome (piFuel P g genome) (piInit g)).mask.isEmpty);
      (by_cases h : (genome_tree_map P g genome (gtmFuel P genome) g.start_rule.text
        { output := [], index := 0, nodes := 0, maxDepth := 0, invalid := false }
        0).1.invalid);
      (by_cases h : (genome_tree_map P g genome (gtmFuel P genome) g.start_rule.text
        { output := [], index := 0, nodes := 0, maxDepth := 0, invalid := false }
        0).1.invalid);
      (by_cases h : (genome_tree_map P g genome (gtmFuel P genome) g.start_rule.text
        { output := [], index := 0, nodes := 0, maxDepth := 0, invalid := false }
        0).1.invalid);
      (by_cases h : (genome_tree_map P g genome (gtmFuel P genome) g.start_rule.text
        { output := [], index := 0, nodes := 0, maxDepth := 0, invalid := false }
        0).1.invalid)] <;>
    simp [map_ind_from_genome, map_PI_ind_from_genome, map_tree_from_genome, h]

/-- Witness for `phenotype_absent_iff_invalid` at the concrete
scenario grammar and genome. -/
theorem phenotype_absent_iff_invalid_witness :
    ([4, 7, 2] : List Nat) ≠ [] ∧
    (((map_ind_from_genome (mkPs 10 2) id gAB [4, 7, 2]).phenotype = none ↔
       (map_ind_from_genome (mkPs 10 2) id gAB [4, 7, 2]).invalid = true) ∧
     (map_ind_from_genome (mkPs 10 2) id gAB [4, 7, 2]).nodes =
       (fqLoop (mkPs 10 2) gAB [4, 7, 2] (fqFuel (mkPs 10 2) gAB [4, 7, 2])
         (fqInit gAB)).nodes ∧
     (map_ind_from_genome (mkPs 10 2) id gAB [4, 7, 2]).maxDepth =
       (fqLoop (mkPs 10 2) gAB [4, 7, 2] (fqFuel (mkPs 10 2) gAB [4, 7, 2])
         (fqInit gAB)).maxDepth ∧
     (map_ind_from_genome (mkPs 10 2) id gAB [4, 7, 2]).usedCodons =
       (fqLoop (mkPs 10 2) gAB [4, 7, 2] (fqFuel (mkPs 10 2) gAB [4, 7, 2])
         (fqInit gAB)).usedInput ∧
     ((map_PI_ind_from_genome (mkPs 10 2) id gAB [4, 7, 2]).phenotype = none ↔
       (map_PI_ind_from_genome (mkPs 10 2) id gAB [4, 7, 2]).invalid = true) ∧
     (map_PI_ind_from_genome (mkPs 10 2) id gAB [4, 7, 2]).nodes =
       (piLoop (mkPs 10 2) gAB [4, 7, 2] (piFuel (mkPs 10 2) gAB [4, 7, 2])
         (piInit gAB)).nodes ∧
     (map_PI_ind_from_genome (mkPs 10 2) id gAB [4, 7, 2]).maxDepth =
       (piLoop (mkPs 10 2) gAB [4, 7, 2] (piFuel (mkPs 10 2) gAB [4, 7, 2])
         (piInit gAB)).maxDepth ∧
     (map_PI_ind_from_genome (mkPs 10 2) id gAB [4, 7, 2]).usedCodons =
       (piLoop (mkPs 10 2) gAB [4, 7, 2] (piFuel (mkPs 10 2) gAB [4, 7, 2])
         (piInit gAB)).usedInput ∧
     ((map_tree_from_genome (mkPs 10 2) id gAB [4, 7, 2]).phenotype = none ↔
       (map_tree_from_genome (mkPs 10 2) id gAB [4, 7, 2]).invalid = true) ∧
     (map_tree_from_genome (mkPs 10 2) id gAB [4, 7, 2]).nodes =
       (genome_tree_map (mkPs 10 2) gAB [4, 7, 2] (gtmFuel (mkPs 10 2) [4, 7, 2])
         gAB.start_rule.text
         { output := [], index := 0, nodes := 0, maxDepth := 0, invalid := false }
         0).1.nodes ∧
     (map_tree_from_genome (mkPs 10 2) id gAB [4, 7, 2]).maxDepth =
       (genome_tree_map (mkPs 10 2) gAB [4, 7, 2] (gtmFuel (mkPs 10 2) [4, 7, 2])
         gAB.start_rule.text
         { output := [], index := 0, nodes := 0, maxDepth := 0, invalid := false }
         0).1.maxDepth ∧
     (map_tree_from_genome (mkPs 10 2) id gAB [4, 7, 2]).usedCodons =
       (genome_tree_map (mkPs 10 2) gAB [4, 7, 2] (gtmFuel (mkPs 10 2) [4, 7, 2])
         gAB.start_rule.text
         { output := [], index := 0, nodes := 0, maxDepth := 0, invalid := false }
         0).1.index) :=
  ⟨by decide, phenotype_absent_iff_invalid (mkPs 10 2) id gAB [4, 7, 2] (by decide)⟩

/-! ## Claim C3 -/

/-- One Fast-Queue step preserves the wrap-counting invariant
`usedInput ≤ len * (wraps + 2)` (the step consumes a codon only after
the boundary check of the same iteration has had its chance to bump the
wrap counter) and keeps the used input within
`len * (max_wraps + 1) + 1`. -/
theorem fqStep_used_inv (P : Ps) (g : Grammar) (genome : List Nat) (s : FqSt)
    (hn : 0 < genome.length) (hc : fqCond P s = true) (hw : -1 ≤ s.wraps)
    (hu : s.usedInput ≤ genome.length * (s.wraps + 2).toNat) :
    -1 ≤ (fqStep g genome s).wraps ∧
    (fqStep g genome s).usedInput ≤
      genome.length * ((fqStep g genome s).wraps + 2).toNat ∧
    (fqStep g genome s).usedInput ≤ genome.length * (P.max_wraps + 1) + 1 := by
  have hcond := hc
  simp only [fqCond, Bool.and_eq_true, decide_eq_true_eq, Bool.not_eq_true',
    List.isEmpty_eq_false] at hcond
  obtain ⟨⟨hwlt, hq⟩, -⟩ := hcond
  set n := genome.length with hn_def
  have htv : (s.wraps + 2).toNat ≤ P.max_wraps + 1 := by omega
  have hWb : n * (s.wraps + 2).toNat ≤ n * (P.max_wraps + 1) :=
    Nat.mul_le_mul_left n htv
  have hsucc : n * (s.wraps + 1 + 2).toNat = n * (s.wraps + 2).toNat + n := by
    have h1 : (s.wraps + 1 + 2).toNat = (s.wraps + 2).toNat + 1 := by omega
    rw [h1, Nat.mul_succ]
  obtain ⟨⟨sym, d⟩, rest, hqe⟩ : ∃ front rest, s.queue = front :: rest := by
    cases hqq : s.queue with
    | nil => exact absurd hqq hq
    | cons a l => exact ⟨a, l, rfl⟩
  cases sym with
  | T t =>
    have eu : (fqStep g genome s).usedInput = s.usedInput := by
      simp only [fqStep, hqe, ← hn_def]
    have ew : (fqStep g genome s).wraps =
        if s.usedInput % n = 0 ∧ 0 < s.usedInput ∧
            (((Sym.T t, d) :: rest).any fun it => it.1.isNT) = true
        then s.wraps + 1 else s.wraps := by
      simp only [fqStep, hqe, ← hn_def]
    rw [eu, ew]
    by_cases hf : s.usedInput % n = 0 ∧ 0 < s.usedInput ∧
        (((Sym.T t, d) :: rest).any fun it => it.1.isNT) = true
    · rw [if_pos hf]
      refine ⟨by omega, ?_, by omega⟩
      simp only [hsucc]
      omega
    · rw [if_neg hf]
      exact ⟨hw, hu, by omega⟩
  | NT nm =>
    have eu : (fqStep g genome s).usedInput = s.usedInput + 1 := by
      simp only [fqStep, hqe, ← hn_def]
    have ew : (fqStep g genome s).wraps =
        if s.usedInput % n = 0 ∧ 0 < s.usedInput ∧
            (((Sym.NT nm, d) :: rest).any fun it => it.1.isNT) = true
        then s.wraps + 1 else s.wraps := by
      simp only [fqStep, hqe, ← hn_def]
    rw [eu, ew]
    by_cases hf : s.usedInput % n = 0 ∧ 0 < s.usedInput ∧
        (((Sym.NT nm, d) :: rest).any fun it => it.1.isNT) = true
    · rw [if_pos hf]
      refine ⟨by omega, ?_, by omega⟩
      simp only [hsucc]
      omega
    · rw [if_neg hf]
      have hany : (((Sym.NT nm, d) :: rest).any fun it => it.1.isNT) = true := by
        simp [Sym.isNT]
      have hcases : s.usedInput = 0 ∨ s.usedInput % n ≠ 0 := by
        by_cases h0 : s.usedInput = 0
        · exact Or.inl h0
        · exact Or.inr fun hmod => hf ⟨hmod, by omega, hany⟩
      refine ⟨hw, ?_, by omega⟩
      rcases hcases with h0 | hmod
      · rw [h0]
        have h1 : 1 ≤ (s.wraps + 2).toNat := by omega
        calc 0 + 1 ≤ n * 1 := by omega
        _ ≤ n * (s.wraps + 2).toNat := Nat.mul_le_mul_left n h1
      · have hne : s.usedInput ≠ n * (s.wraps + 2).toNat := by
          intro he
          apply hmod
          rw [he, Nat.mul_mod_right]
        omega

/-- Along the Fast-Queue loop, the wrap-counting invariant keeps the
used-input counter within `len * (max_wraps + 1) + 1`. -/
theorem fqLoop_used_le (P : Ps) (g : Grammar) (genome : List Nat)
    (hn : 0 < genome.length) :
    ∀ (f : Nat) (s : FqSt), -1 ≤ s.wraps →
      s.usedInput ≤ genome.length * (s.wraps + 2).toNat →
      s.usedInput ≤ genome.length * (P.max_wraps + 1) + 1 →
      (fqLoop P g genome f s).usedInput ≤
        genome.length * (P.max_wraps + 1) + 1 := by
  intro f
  induction f with
  | zero => intro s _ _ h3; exact h3
  | succ f ih =>
    intro s h1 h2 h3
    rw [fqLoop]
    by_cases hc : fqCond P s = true
    · rw [if_pos hc]
      obtain ⟨g1, g2, g3⟩ := fqStep_used_inv P g genome s hn hc h1 h2
      exact ih _ g1 g2 g3
    · rw [if_neg hc]; exact h3

/-- Preservation of a state predicate along the child loop of
`genome_tree_map`, given that the recursive expansion and the terminal
output append preserve it. -/
theorem gtmSyms_pres (expand : String → MSt → MSt) (p : MSt → Prop)
    (hexp : ∀ nm st, p st → p (expand nm st))
    (hout : ∀ st t, p st → p { st with output := st.output ++ [t] }) :
    ∀ (syms : List Sym) (st : MSt), p st → p (gtmSyms expand syms st) := by
  intro syms
  induction syms with
  | nil => intro st h; exact h
  | cons s rest ih =>
    intro st h
    cases s with
    | T t => rw [gtmSyms]; exact ih _ (hout st t h)
    | NT nm => rw [gtmSyms]; exact ih _ (hexp nm st h)

/-- `gtmPost` never changes the genome index. -/
theorem gtmPost_index (P : Ps) (g : Grammar) (chosen : List Sym) (st2 : MSt)
    (depth : Nat) : (gtmPost P g chosen st2 depth).1.index = st2.index := by
  unfold gtmPost
  dsimp only
  repeat' split
  all_goals rfl

/-- The genome index accumulated by `genome_tree_map` never exceeds
`len * (max_wraps + 1)`: the guard requires a strictly smaller index
before a codon is consumed. -/
theorem gtm_index_le (P : Ps) (g : Grammar) (genome : List Nat) :
    ∀ (f : Nat) (root : String) (st : MSt) (d0 : Nat),
      st.index ≤ genome.length * (P.max_wraps + 1) →
      (genome_tree_map P g genome f root st d0).1.index ≤
        genome.length * (P.max_wraps + 1) := by
  intro f
  induction f with
  | zero => intro root st d0 h; exact h
  | succ f ih =>
    intro root st d0 h
    rw [genome_tree_map]
    by_cases hg : gtmGuard P genome st
    · rw [if_pos hg]
      have hg2 : st.index < genome.length * (P.max_wraps + 1) := hg.2.1
      dsimp only
      rw [gtmPost_index]
      exact gtmSyms_pres
        (fun nm s => (genome_tree_map P g genome f nm s (d0 + 1)).1)
        (fun s => s.index ≤ genome.length * (P.max_wraps + 1))
        (fun nm s hs => ih nm s (d0 + 1) hs) (fun s t hs => hs) _ _
        (by simpa using hg2)
    · rw [if_neg hg]; exact h

/-- A non-empty recomputed mask certifies a non-terminal in the queue it
was computed from. -/
theorem piNewMask_ne_nil {q : List (Sym × Nat)}
    (h : (piNewMask q).isEmpty = false) :
    q.any (fun it => it.1.isNT) = true := by
  rcases hq : q.filter (fun e => e.1.isNT) with - | ⟨a, l⟩
  · exfalso
    simp [piNewMask, hq] at h
  · have ha : a ∈ q.filter (fun e => e.1.isNT) := by
      rw [hq]; exact List.mem_cons_self a l
    obtain ⟨hmem, hpred⟩ := List.mem_filter.mp ha
    exact List.any_eq_true.mpr ⟨a, hmem, hpred⟩

/-- The recomputed mask of the state one Position-Independent step
produces always matches that state's queue. -/
theorem piStep_mask_coherent (g : Grammar) (genome : List Nat) (s : PiSt) :
    (piStep g genome s).mask = piNewMask (piStep g genome s).queue := rfl

/-- One Position-Independent step on an odd-length genome preserves the
wrap-counting invariant `usedInput ≤ len * (2 * (wraps + 1) + 1)`
(expansion consumes codon pairs, and the boundary can only be met at odd
multiples of the length) and keeps the used input within
`len * (2 * max_wraps + 1) + 2`. -/
theorem piStep_used_inv (P : Ps) (g : Grammar) (genome : List Nat) (s : PiSt)
    (hn : 0 < genome.length) (hodd : genome.length % 2 = 1)
    (hc : piCond P s = true)
    (hcoh : s.mask.isEmpty = false → s.queue.any (fun it => it.1.isNT) = true)
    (hw : -1 ≤ s.wraps) (hu2 : s.usedInput % 2 = 1)
    (hu : s.usedInput ≤ genome.length * (2 * (s.wraps + 1).toNat + 1)) :
    -1 ≤ (piStep g genome s).wraps ∧
    (piStep g genome s).usedInput % 2 = 1 ∧
    (piStep g genome s).usedInput ≤
      genome.length * (2 * ((piStep g genome s).wraps + 1).toNat + 1) ∧
    (piStep g genome s).usedInput ≤
      genome.length * (2 * P.max_wraps + 1) + 2 ∧
    ((piStep g genome s).mask.isEmpty = false →
      (piStep g genome s).queue.any (fun it => it.1.isNT) = true) := by
  have hcond := hc
  simp only [piCond, Bool.and_eq_true, decide_eq_true_eq, Bool.not_eq_true'] at hcond
  obtain ⟨⟨hwlt, hm⟩, -⟩ := hcond
  set n := genome.length with hn_def
  have hany := hcoh hm
  have hupos : 0 < s.usedInput := by omega
  have eu : (piStep g genome s).usedInput = s.usedInput + 2 := rfl
  have ew : (piStep g genome s).wraps =
      if s.usedInput % n = 0 ∧ 0 < s.usedInput ∧
          s.queue.any (fun it => it.1.isNT) = true
      then s.wraps + 1 else s.wraps := rfl
  have hcoh2 : (piStep g genome s).mask.isEmpty = false →
      (piStep g genome s).queue.any (fun it => it.1.isNT) = true := by
    intro h
    rw [piStep_mask_coherent] at h
    exact piNewMask_ne_nil h
  have htW : (s.wraps + 1).toNat ≤ P.max_wraps := by omega
  have hWb : n * (2 * (s.wraps + 1).toNat + 1) ≤ n * (2 * P.max_wraps + 1) :=
    Nat.mul_le_mul_left n (by omega)
  by_cases hmod : s.usedInput % n = 0
  · -- the wrap check fires
    have hfire : s.usedInput % n = 0 ∧ 0 < s.usedInput ∧
        s.queue.any (fun it => it.1.isNT) = true := ⟨hmod, hupos, hany⟩
    rw [eu, ew, if_pos hfire]
    have hstep : n * (2 * (s.wraps + 1 + 1).toNat + 1) =
        n * (2 * (s.wraps + 1).toNat + 1) + 2 * n := by
      have h1 : 2 * (s.wraps + 1 + 1).toNat + 1 =
          (2 * (s.wraps + 1).toNat + 1) + 2 := by omega
      rw [h1, Nat.mul_add, Nat.mul_comm n 2]
    refine ⟨by omega, by omega, ?_, by omega, hcoh2⟩
    rw [hstep]
    omega
  · -- the wrap check cannot fire at a non-boundary position
    have hfire : ¬ (s.usedInput % n = 0 ∧ 0 < s.usedInput ∧
        s.queue.any (fun it => it.1.isNT) = true) := fun h => hmod h.1
    rw [eu, ew, if_neg hfire]
    have h1 : (2 * (s.wraps + 1).toNat + 1) % 2 = 1 := by omega
    have hModd : (n * (2 * (s.wraps + 1).toNat + 1)) % 2 = 1 := by
      rw [Nat.mul_mod, hodd, h1]
    have hneq : s.usedInput ≠ n * (2 * (s.wraps + 1).toNat + 1) := by
      intro he
      apply hmod
      rw [he, Nat.mul_mod_right]
    refine ⟨hw, by omega, by omega, by omega, hcoh2⟩

/-- Along the Position-Independent loop on an odd-length genome, the
used-input counter stays within `len * (2 * max_wraps + 1) + 2`. -/
theorem piLoop_used_le (P : Ps) (g : Grammar) (genome : List Nat)
    (hn : 0 < genome.length) (hodd : genome.length % 2 = 1) :
    ∀ (f : Nat) (s : PiSt), -1 ≤ s.wraps → s.usedInput % 2 = 1 →
      (s.mask.isEmpty = false → s.queue.any (fun it => it.1.isNT) = true) →
      s.usedInput ≤ genome.length * (2 * (s.wraps + 1).toNat + 1) →
      s.usedInput ≤ genome.length * (2 * P.max_wraps + 1) + 2 →
      (piLoop P g genome f s).usedInput ≤
        genome.length * (2 * P.max_wraps + 1) + 2 := by
  intro f
  induction f with
  | zero => intro s _ _ _ _ h5; exact h5
  | succ f ih =>
    intro s h1 h2 h3 h4 h5
    rw [piLoop]
    by_cases hc : piCond P s = true
    · rw [if_pos hc]
      obtain ⟨g1, g2, g3, g4, g5⟩ := piStep_used_inv P g genome s hn hodd hc h3 h1 h2 h4
      exact ih _ g1 g2 g5 g3 g4
    · rw [if_neg hc]; exact h5

/-- Claim C3 (counterexample): with the always-recursing grammar
`S → S`, `max_wraps = 0` and `max_tree_depth = 10`, the Fast-Queue
strategy on genome `[0]` uses 2 codons, exceeding
`len * (max_wraps + 1) = 1`, and the Position-Independent strategy on
the even-length genome `[0, 0]` uses 23 codons, exceeding
`len * (max_wraps + 1) = 2`. -/
theorem used_codons_bound_violated :
    (map_ind_from_genome (mkPs 10 0) id gLoop [0]).usedCodons = 2 ∧
    ¬ (map_ind_from_genome (mkPs 10 0) id gLoop [0]).usedCodons ≤
        ([0] : List Nat).length * ((mkPs 10 0).max_wraps + 1) ∧
    (map_PI_ind_from_genome (mkPs 10 0) id gLoop [0, 0]).usedCodons = 23 ∧
    ¬ (map_PI_ind_from_genome (mkPs 10 0) id gLoop [0, 0]).usedCodons ≤
        ([0, 0] : List Nat).length * ((mkPs 10 0).max_wraps + 1) := by
  decide

/-- Claim C3 (corrected): for a non-empty genome and a grammar whose
start symbol is a non-terminal, the Tree-Building strategy satisfies
`used_codons ≤ len * (max_wraps + 1)`, the Fast-Queue strategy satisfies
`used_codons ≤ len * (max_wraps + 1) + 1` (the iteration that fires the
final wrap may still consume one codon), and the Position-Independent
strategy satisfies `used_codons ≤ len * (2 * max_wraps + 1) + 2` for
odd-length genomes — for even-length genomes its wrap budget never
fires, so no bound in terms of `len` and `max_wraps` exists. -/
theorem used_codons_bounds (P : Ps) (pf : String → String) (g : Grammar)
    (genome : List Nat) (hne : genome ≠ [])
    (hS : g.start_rule.isNT = true) :
    (map_tree_from_genome P pf g genome).usedCodons ≤
      genome.length * (P.max_wraps + 1) ∧
    (map_ind_from_genome P pf g genome).usedCodons ≤
      genome.length * (P.max_wraps + 1) + 1 ∧
    (genome.length % 2 = 1 →
      (map_PI_ind_from_genome P pf g genome).usedCodons ≤
        genome.length * (2 * P.max_wraps + 1) + 2) := by
  have hn : 0 < genome.length := List.length_pos.mpr hne
  refine ⟨?_, ?_, ?_⟩
  · have h := gtm_index_le P g genome (gtmFuel P genome) g.start_rule.text
      { output := [], index := 0, nodes := 0, maxDepth := 0, invalid := false } 0
      (by simp)
    by_cases hi : (genome_tree_map P g genome (gtmFuel P genome) g.start_rule.text
        { output := [], index := 0, nodes := 0, maxDepth := 0, invalid := false }
        0).1.invalid <;>
      simpa [map_tree_from_genome, hi] using h
  · have h := fqLoop_used_le P g genome hn (fqFuel P g genome) (fqInit g)
      (by simp [fqInit]) (by simp [fqInit]) (by simp [fqInit])
    by_cases hi : (fqLoop P g genome (fqFuel P g genome) (fqInit g)).queue.isEmpty <;>
      simpa [map_ind_from_genome, hi] using h
  · intro hodd
    have h := piLoop_used_le P g genome hn hodd (piFuel P g genome) (piInit g)
      (by simp [piInit]) (by simp [piInit])
      (by intro; simpa [piInit, Sym.isNT] using hS)
      (by simpa [piInit] using hn) (by simp [piInit])
    by_cases hi : (piLoop P g genome (piFuel P g genome) (piInit g)).mask.isEmpty <;>
      simpa [map_PI_ind_from_genome, hi] using h

/-- Witness for `used_codons_bounds` at the concrete scenario grammar
and genome. -/
theorem used_codons_bounds_witness :
    ([4, 7, 2] : List Nat) ≠ [] ∧ gAB.start_rule.isNT = true ∧
    ((map_tree_from_genome (mkPs 10 2) id gAB [4, 7, 2]).usedCodons ≤
       ([4, 7, 2] : List Nat).length * ((mkPs 10 2).max_wraps + 1) ∧
     (map_ind_from_genome (mkPs 10 2) id gAB [4, 7, 2]).usedCodons ≤
       ([4, 7, 2] : List Nat).length * ((mkPs 10 2).max_wraps + 1) + 1 ∧
     (([4, 7, 2] : List Nat).length % 2 = 1 →
       (map_PI_ind_from_genome (mkPs 10 2) id gAB [4, 7, 2]).usedCodons ≤
         ([4, 7, 2] : List Nat).length * (2 * (mkPs 10 2).max_wraps + 1) + 2)) :=
  ⟨by decide, by decide,
   used_codons_bounds (mkPs 10 2) id gAB [4, 7, 2] (by decide) (by decide)⟩

/-! ## Claim C7 -/

/-- A failed loop condition absorbs: the Fast-Queue loop returns the
state unchanged. -/
theorem fqLoop_halt (P : Ps) (g : Grammar) (genome : List Nat) (f : Nat)
    (s : FqSt) (h : fqCond P s = false) : fqLoop P g genome f s = s := by
  cases f with
  | zero => rfl
  | succ f => rw [fqLoop, if_neg (by simp [h])]

/-- The Fast-Queue loop condition is monotone in the two limits. -/
theorem fqCond_mono (P P' : Ps) (hW : P.max_wraps ≤ P'.max_wraps)
    (hD : P.max_tree_depth ≤ P'.max_tree_depth) (s : FqSt)
    (h : fqCond P s = true) : fqCond P' s = true := by
  simp only [fqCond, Bool.and_eq_true, decide_eq_true_eq] at h ⊢
  obtain ⟨⟨h1, h2⟩, h3⟩ := h
  have hc : (P.max_wraps : Int) ≤ (P'.max_wraps : Int) := by exact_mod_cast hW
  exact ⟨⟨by omega, h2⟩, by omega⟩

/-- One Fast-Queue step never lowers the running maximum depth. -/
theorem fqStep_maxDepth_le (g : Grammar) (genome : List Nat) (s : FqSt) :
    s.maxDepth ≤ (fqStep g genome s).maxDepth := by
  rcases hq : s.queue with - | ⟨⟨sym, d⟩, rest⟩
  · have e : fqStep g genome s = s := by
      simp only [fqStep, hq]
    rw [e]
  · cases sym with
    | T t =>
      have e : (fqStep g genome s).maxDepth =
          if s.maxDepth < d then d else s.maxDepth := by
        simp only [fqStep, hq]
      rw [e]; split <;> omega
    | NT nm =>
      have e : (fqStep g genome s).maxDepth =
          if s.maxDepth < d then d else s.maxDepth := by
        simp only [fqStep, hq]
      rw [e]; split <;> omega

/-- The Fast-Queue loop never lowers the running maximum depth. -/
theorem fqLoop_maxDepth_ge (P : Ps) (g : Grammar) (genome : List Nat) :
    ∀ (f : Nat) (s : FqSt), s.maxDepth ≤ (fqLoop P g genome f s).maxDepth := by
  intro f
  induction f with
  | zero => intro s; exact Nat.le_refl _
  | succ f ih =>
    intro s
    rw [fqLoop]
    by_cases hc : fqCond P s = true
    · rw [if_pos hc]
      exact le_trans (fqStep_maxDepth_le g genome s) (ih _)
    · rw [if_neg (by simp [hc])]

/-- If the Fast-Queue loop drains its queue under one pair of limits,
then under relaxed limits (and no less fuel) it follows the same
trajectory and returns the identical final state. -/
theorem fqLoop_done_ext (P P' : Ps) (g : Grammar) (genome : List Nat)
    (hW : P.max_wraps ≤ P'.max_wraps)
    (hD : P.max_tree_depth ≤ P'.max_tree_depth) :
    ∀ (f f' : Nat), f ≤ f' → ∀ s : FqSt,
      (fqLoop P g genome f s).queue = [] →
      fqLoop P' g genome f' s = fqLoop P g genome f s := by
  intro f
  induction f with
  | zero =>
    intro f' _ s h
    have hs : s.queue = [] := h
    have hc' : fqCond P' s = false := by simp [fqCond, hs]
    exact fqLoop_halt P' g genome f' s hc'
  | succ f ih =>
    intro f' hf s h
    by_cases hc : fqCond P s = true
    · have hc' := fqCond_mono P P' hW hD s hc
      obtain ⟨f'', rfl⟩ : ∃ k, f' = k + 1 := ⟨f' - 1, by omega⟩
      have eL : fqLoop P g genome (f + 1) s =
          fqLoop P g genome f (fqStep g genome s) := by rw [fqLoop, if_pos hc]
      have eR : fqLoop P' g genome (f'' + 1) s =
          fqLoop P' g genome f'' (fqStep g genome s) := by rw [fqLoop, if_pos hc']
      rw [eL] at h
      rw [eL, eR]
      exact ih f'' (by omega) _ h
    · have hcf : fqCond P s = false := Bool.eq_false_iff.mpr hc
      have eL : fqLoop P g genome (f + 1) s = s := fqLoop_halt P g genome _ s hcf
      rw [eL] at h
      rw [eL]
      exact fqLoop_halt P' g genome f' s (by simp [fqCond, h])

/-- The final maximum depth of the Fast-Queue loop is monotone in the
two limits (and in the fuel). -/
theorem fqLoop_maxDepth_mono (P P' : Ps) (g : Grammar) (genome : List Nat)
    (hW : P.max_wraps ≤ P'.max_wraps)
    (hD : P.max_tree_depth ≤ P'.max_tree_depth) :
    ∀ (f f' : Nat), f ≤ f' → ∀ s : FqSt,
      (fqLoop P g genome f s).maxDepth ≤
        (fqLoop P' g genome f' s).maxDepth := by
  intro f
  induction f with
  | zero => intro f' _ s; exact fqLoop_maxDepth_ge P' g genome f' s
  | succ f ih =>
    intro f' hf s
    by_cases hc : fqCond P s = true
    · have hc' := fqCond_mono P P' hW hD s hc
      obtain ⟨f'', rfl⟩ : ∃ k, f' = k + 1 := ⟨f' - 1, by omega⟩
      have eL : fqLoop P g genome (f + 1) s =
          fqLoop P g genome f (fqStep g genome s) := by rw [fqLoop, if_pos hc]
      have eR : fqLoop P' g genome (f'' + 1) s =
          fqLoop P' g genome f'' (fqStep g genome s) := by rw [fqLoop, if_pos hc']
      rw [eL, eR]
      exact ih f'' (by omega) _
    · have hcf : fqCond P s = false := Bool.eq_false_iff.mpr hc
      rw [fqLoop_halt P g genome _ s hcf]
      exact fqLoop_maxDepth_ge P' g genome f' s

/-- A failed loop condition absorbs: the Position-Independent loop
returns the state unchanged. -/
theorem piLoop_halt (P : Ps) (g : Grammar) (genome : List Nat) (f : Nat)
    (s : PiSt) (h : piCond P s = false) : piLoop P g genome f s = s := by
  cases f with
  | zero => rfl
  | succ f => rw [piLoop, if_neg (by simp [h])]

/-- The Position-Independent loop condition is monotone in the two
limits. -/
theorem piCond_mono (P P' : Ps) (hW : P.max_wraps ≤ P'.max_wraps)
    (hD : P.max_tree_depth ≤ P'.max_tree_depth) (s : PiSt)
    (h : piCond P s = true) : piCond P' s = true := by
  simp only [piCond, Bool.and_eq_true, decide_eq_true_eq] at h ⊢
  obtain ⟨⟨h1, h2⟩, h3⟩ := h
  have hc : (P.max_wraps : Int) ≤ (P'.max_wraps : Int) := by exact_mod_cast hW
  exact ⟨⟨by omega, h2⟩, by omega⟩

/-- One Position-Independent step never lowers the running maximum
depth. -/
theorem piStep_maxDepth_le (g : Grammar) (genome : List Nat) (s : PiSt) :
    s.maxDepth ≤ (piStep g genome s).maxDepth := by
  have e : (piStep g genome s).maxDepth =
      if s.maxDepth <
          (s.queue.getD
            (s.mask.getD
              (genome.getD (s.position % genome.length) 0 % s.mask.length) 0)
            (Sym.T "", 0)).2
      then (s.queue.getD
            (s.mask.getD
              (genome.getD (s.position % genome.length) 0 % s.mask.length) 0)
            (Sym.T "", 0)).2
      else s.maxDepth := rfl
  rw [e]; split <;> omega

/-- The Position-Independent loop never lowers the running maximum
depth. -/
theorem piLoop_maxDepth_ge (P : Ps) (g : Grammar) (genome : List Nat) :
    ∀ (f : Nat) (s : PiSt), s.maxDepth ≤ (piLoop P g genome f s).maxDepth := by
  intro f
  induction f with
  | zero => intro s; exact Nat.le_refl _
  | succ f ih =>
    intro s
    rw [piLoop]
    by_cases hc : piCond P s = true
    · rw [if_pos hc]
      exact le_trans (piStep_maxDepth_le g genome s) (ih _)
    · rw [if_neg (by simp [hc])]

/-- If the Position-Independent loop empties its mask under one pair of
limits, then under relaxed limits (and no less fuel) it follows the same
trajectory and returns the identical final state. -/
theorem piLoop_done_ext (P P' : Ps) (g : Grammar) (genome : List Nat)
    (hW : P.max_wraps ≤ P'.max_wraps)
    (hD : P.max_tree_depth ≤ P'.max_tree_depth) :
    ∀ (f f' : Nat), f ≤ f' → ∀ s : PiSt,
      (piLoop P g genome f s).mask = [] →
      piLoop P' g genome f' s = piLoop P g genome f s := by
  intro f
  induction f with
  | zero =>
    intro f' _ s h
    have hs : s.mask = [] := h
    have hc' : piCond P' s = false := by simp [piCond, hs]
    exact piLoop_halt P' g genome f' s hc'
  | succ f ih =>
    intro f' hf s h
    by_cases hc : piCond P s = true
    · have hc' := piCond_mono P P' hW hD s hc
      obtain ⟨f'', rfl⟩ : ∃ k, f' = k + 1 := ⟨f' - 1, by omega⟩
      have eL : piLoop P g genome (f + 1) s =
          piLoop P g genome f (piStep g genome s) := by rw [piLoop, if_pos hc]
      have eR : piLoop P' g genome (f'' + 1) s =
          piLoop P' g genome f'' (piStep g genome s) := by rw [piLoop, if_pos hc']
      rw [eL] at h
      rw [eL, eR]
      exact ih f'' (by omega) _ h
    · have hcf : piCond P s = false := Bool.eq_false_iff.mpr hc
      have eL : piLoop P g genome (f + 1) s = s := piLoop_halt P g genome _ s hcf
      rw [eL] at h
      rw [eL]
      exact piLoop_halt P' g genome f' s (by simp [piCond, h])

/-- The final maximum depth of the Position-Independent loop is monotone
in the two limits (and in the fuel). -/
theorem piLoop_maxDepth_mono (P P' : Ps) (g : Grammar) (genome : List Nat)
    (hW : P.max_wraps ≤ P'.max_wraps)
    (hD : P.max_tree_depth ≤ P'.max_tree_depth) :
    ∀ (f f' : Nat), f ≤ f' → ∀ s : PiSt,
      (piLoop P g genome f s).maxDepth ≤
        (piLoop P' g genome f' s).maxDepth := by
  intro f
  induction f with
  | zero => intro f' _ s; exact piLoop_maxDepth_ge P' g genome f' s
  | succ f ih =>
    intro f' hf s
    by_cases hc : piCond P s = true
    · have hc' := piCond_mono P P' hW hD s hc
      obtain ⟨f'', rfl⟩ : ∃ k, f' = k + 1 := ⟨f' - 1, by omega⟩
      have eL : piLoop P g genome (f + 1) s =
          piLoop P g genome f (piStep g genome s) := by rw [piLoop, if_pos hc]
      have eR : piLoop P' g genome (f'' + 1) s =
          piLoop P' g genome f'' (piStep g genome s) := by rw [piLoop, if_pos hc']
      rw [eL, eR]
      exact ih f'' (by omega) _
    · have hcf : piCond P s = false := Bool.eq_false_iff.mpr hc
      rw [piLoop_halt P g genome _ s hcf]
      exact piLoop_maxDepth_ge P' g genome f' s

/-- `gtmPost` never lowers the running maximum depth. -/
theorem gtmPost_maxDepth_ge (P : Ps) (g : Grammar) (chosen : List Sym)
    (st2 : MSt) (depth : Nat) :
    st2.maxDepth ≤ (gtmPost P g chosen st2 depth).1.maxDepth := by
  unfold gtmPost
  dsimp only
  repeat' split
  all_goals dsimp only at *
  all_goals omega

/-- Setting the invalid flag of an already-invalid state is the
identity. -/
theorem mst_invalid_update (s : MSt) (h : s.invalid = true) :
    { s with invalid := true } = s := by
  cases s
  simp_all

/-- `genome_tree_map` on an invalid input state returns it unchanged
(with the flag still set) together with the incoming depth. -/
theorem gtm_invalid_absorb (P : Ps) (g : Grammar) (genome : List Nat) :
    ∀ (f : Nat) (root : String) (st : MSt) (d0 : Nat), st.invalid = true →
      genome_tree_map P g genome f root st d0 = ({ st with invalid := true }, d0) := by
  intro f root st d0 h
  cases f with
  | zero => rfl
  | succ f =>
    rw [genome_tree_map, if_neg]
    intro hg
    rw [hg.1] at h
    exact Bool.false_ne_true h

/-- `genome_tree_map` never lowers the running maximum depth. -/
theorem gtm_maxDepth_ge (P : Ps) (g : Grammar) (genome : List Nat) :
    ∀ (f : Nat) (root : String) (st : MSt) (d0 : Nat),
      st.maxDepth ≤ (genome_tree_map P g genome f root st d0).1.maxDepth := by
  intro f
  induction f with
  | zero => intro root st d0; exact Nat.le_refl _
  | succ f ih =>
    intro root st d0
    rw [genome_tree_map]
    by_cases hg : gtmGuard P genome st
    · rw [if_pos hg]
      dsimp only
      calc st.maxDepth ≤ (gtmSyms
          (fun nm s => (genome_tree_map P g genome f nm s (d0 + 1)).1)
          (gtmChosen g genome root st.index)
          { st with nodes := st.nodes + 1, index := st.index + 1 }).maxDepth := by
            exact gtmSyms_pres _ (fun s => st.maxDepth ≤ s.maxDepth)
              (fun nm s hs => le_trans hs (ih nm s (d0 + 1)))
              (fun s t hs => hs) _ _ (Nat.le_refl _)
      _ ≤ _ := gtmPost_maxDepth_ge P g _ _ _
    · rw [if_neg hg]

/-- Relational monotonicity of `gtmPost` in the depth limit: the final
maximum depth can only grow, and a valid result is reproduced exactly
under the relaxed limit. -/
theorem gtmPost_rel (P P' : Ps) (hD : P.max_tree_depth ≤ P'.max_tree_depth)
    (g : Grammar) (chosen : List Sym) (stL2 stR2 : MSt) (depth : Nat)
    (hmd : stL2.maxDepth ≤ stR2.maxDepth)
    (heq : stL2.invalid = false → stR2 = stL2) :
    (gtmPost P g chosen stL2 depth).1.maxDepth ≤
      (gtmPost P' g chosen stR2 depth).1.maxDepth ∧
    ((gtmPost P g chosen stL2 depth).1.invalid = false →
      gtmPost P' g chosen stR2 depth = gtmPost P g chosen stL2 depth) := by
  by_cases hvL : stL2.invalid = false
  · rw [heq hvL]
    unfold gtmPost
    dsimp only
    by_cases hk : (chosen.filter (fun sy => decide (sy.text ∈ g.non_terminals))).isEmpty
    · rw [if_pos hk, if_pos hk]
      by_cases hv3 : ({ stL2 with nodes := stL2.nodes + 1 } : MSt).invalid = false
      · rw [if_pos hv3, if_pos hv3]
        refine ⟨Nat.le_refl _, ?_⟩
        intro h
        simp only [decide_eq_false_iff_not, Nat.not_lt] at h
        have h' : decide (P'.max_tree_depth <
            (if ({ stL2 with nodes := stL2.nodes + 1 } : MSt).maxDepth < depth + 1
             then depth + 1
             else ({ stL2 with nodes := stL2.nodes + 1 } : MSt).maxDepth)) = false := by
          simp only [decide_eq_false_iff_not, Nat.not_lt]
          omega
        have h'' : decide (P.max_tree_depth <
            (if ({ stL2 with nodes := stL2.nodes + 1 } : MSt).maxDepth < depth + 1
             then depth + 1
             else ({ stL2 with nodes := stL2.nodes + 1 } : MSt).maxDepth)) = false := by
          simp only [decide_eq_false_iff_not, Nat.not_lt]
          omega
        rw [h', h'']
      · rw [if_neg hv3, if_neg hv3]
        exact ⟨Nat.le_refl _, fun _ => rfl⟩
    · rw [if_neg hk, if_neg hk]
      by_cases hv3 : stL2.invalid = false
      · rw [if_pos hv3, if_pos hv3]
        refine ⟨Nat.le_refl _, ?_⟩
        intro h
        simp only [decide_eq_false_iff_not, Nat.not_lt] at h
        have h' : decide (P'.max_tree_depth <
            (if stL2.maxDepth < depth then depth else stL2.maxDepth)) = false := by
          simp only [decide_eq_false_iff_not, Nat.not_lt]
          omega
        have h'' : decide (P.max_tree_depth <
            (if stL2.maxDepth < depth then depth else stL2.maxDepth)) = false := by
          simp only [decide_eq_false_iff_not, Nat.not_lt]
          omega
        rw [h', h'']
      · rw [if_neg hv3, if_neg hv3]
        exact ⟨Nat.le_refl _, fun _ => rfl⟩
  · have hvL' : stL2.invalid = true := Bool.ne_false_iff.mp hvL
    have hL : (gtmPost P g chosen stL2 depth).1 =
        (if (chosen.filter (fun sy => decide (sy.text ∈ g.non_terminals))).isEmpty
         then ({ stL2 with nodes := stL2.nodes + 1 } : MSt) else stL2) := by
      unfold gtmPost
      dsimp only
      by_cases hk : (chosen.filter (fun sy => decide (sy.text ∈ g.non_terminals))).isEmpty
      · rw [if_pos hk, if_pos hk, if_neg (by simp [hvL'])]
      · rw [if_neg hk, if_neg hk, if_neg (by simp [hvL'])]
    constructor
    · rw [hL]
      have hLmd : (if (chosen.filter
            (fun sy => decide (sy.text ∈ g.non_terminals))).isEmpty
          then ({ stL2 with nodes := stL2.nodes + 1 } : MSt) else stL2).maxDepth =
          stL2.maxDepth := by
        split <;> rfl
      rw [hLmd]
      exact le_trans hmd (gtmPost_maxDepth_ge P' g chosen stR2 depth)
    · intro h
      rw [hL] at h
      have : stL2.invalid = false := by
        rcases hk : (chosen.filter
            (fun sy => decide (sy.text ∈ g.non_terminals))).isEmpty <;>
          simp [hk] at h <;> exact h
      exact absurd this hvL

/-- Relational lift of `gtmSyms`: if the left expansion absorbs invalid
states, the right expansion never lowers the maximum depth, and the two
expansions are related on valid states (left depth bounded by right,
valid left runs reproduced exactly on the right), then the child loop
preserves that relation. -/
theorem gtmSyms_rel (expL expR : String → MSt → MSt)
    (hmdR : ∀ nm s, s.maxDepth ≤ (expR nm s).maxDepth)
    (habsL : ∀ nm s, s.invalid = true → expL nm s = { s with invalid := true })
    (hrel : ∀ nm s, s.invalid = false →
      (expL nm s).maxDepth ≤ (expR nm s).maxDepth ∧
        ((expL nm s).invalid = false → expR nm s = expL nm s)) :
    ∀ (syms : List Sym) (stL stR : MSt), stL.maxDepth ≤ stR.maxDepth →
      (stL.invalid = false → stR = stL) →
      (gtmSyms expL syms stL).maxDepth ≤ (gtmSyms expR syms stR).maxDepth ∧
        ((gtmSyms expL syms stL).invalid = false →
          gtmSyms expR syms stR = gtmSyms expL syms stL) := by
  intro syms
  induction syms with
  | nil =>
    intro stL stR hmd heq
    exact ⟨hmd, fun hv => heq hv⟩
  | cons s rest ih =>
    intro stL stR hmd heq
    cases s with
    | T t =>
      rw [gtmSyms, gtmSyms]
      refine ih { stL with output := stL.output ++ [t] }
        { stR with output := stR.output ++ [t] } hmd ?_
      intro hv
      have : stR = stL := heq hv
      rw [this]
    | NT nm =>
      rw [gtmSyms, gtmSyms]
      by_cases hv : stL.invalid = false
      · have hRL : stR = stL := heq hv
        rw [hRL]
        obtain ⟨h1, h2⟩ := hrel nm stL hv
        exact ih (expL nm stL) (expR nm stL) h1 h2
      · have hv' : stL.invalid = true := Bool.ne_false_iff.mp hv
        have hL : expL nm stL = { stL with invalid := true } := habsL nm stL hv'
        rw [hL, mst_invalid_update stL hv']
        refine ih stL (expR nm stR) (le_trans hmd (hmdR nm stR)) ?_
        intro hvf
        exact absurd hvf hv

/-- Relational monotonicity of `genome_tree_map` in the two limits and
the fuel: the final maximum depth never shrinks, and a valid run is
reproduced exactly under the relaxed limits. -/
theorem gtm_rel (g : Grammar) (genome : List Nat) (P P' : Ps)
    (hW : P.max_wraps ≤ P'.max_wraps)
    (hD : P.max_tree_depth ≤ P'.max_tree_depth) :
    ∀ (f f' : Nat), f ≤ f' → ∀ (root : String) (st : MSt) (d0 : Nat),
      st.invalid = false →
      (genome_tree_map P g genome f root st d0).1.maxDepth ≤
        (genome_tree_map P' g genome f' root st d0).1.maxDepth ∧
      ((genome_tree_map P g genome f root st d0).1.invalid = false →
        genome_tree_map P' g genome f' root st d0 =
          genome_tree_map P g genome f root st d0) := by
  intro f
  induction f with
  | zero =>
    intro f' _ root st d0 _
    constructor
    · exact gtm_maxDepth_ge P' g genome f' root st d0
    · intro h
      exact absurd h (by simp [genome_tree_map])
  | succ f ih =>
    intro f' hf root st d0 hv
    by_cases hg : gtmGuard P genome st
    · have hg' : gtmGuard P' genome st :=
        ⟨hg.1,
         lt_of_lt_of_le hg.2.1 (Nat.mul_le_mul_left _ (by omega)),
         le_trans hg.2.2 hD⟩
      obtain ⟨f'', rfl⟩ : ∃ k, f' = k + 1 := ⟨f' - 1, by omega⟩
      have eL : genome_tree_map P g genome (f + 1) root st d0 =
          gtmPost P g (gtmChosen g genome root st.index)
            (gtmSyms (fun nm s => (genome_tree_map P g genome f nm s (d0 + 1)).1)
              (gtmChosen g genome root st.index)
              { st with nodes := st.nodes + 1, index := st.index + 1 })
            (d0 + 1) := by
        rw [genome_tree_map, if_pos hg]
      have eR : genome_tree_map P' g genome (f'' + 1) root st d0 =
          gtmPost P' g (gtmChosen g genome root st.index)
            (gtmSyms (fun nm s => (genome_tree_map P' g genome f'' nm s (d0 + 1)).1)
              (gtmChosen g genome root st.index)
              { st with nodes := st.nodes + 1, index := st.index + 1 })
            (d0 + 1) := by
        rw [genome_tree_map, if_pos hg']
      rw [eL, eR]
      have hsyms := gtmSyms_rel
        (fun nm s => (genome_tree_map P g genome f nm s (d0 + 1)).1)
        (fun nm s => (genome_tree_map P' g genome f'' nm s (d0 + 1)).1)
        (fun nm s => gtm_maxDepth_ge P' g genome f'' nm s (d0 + 1))
        (fun nm s hs => by
          dsimp only
          rw [gtm_invalid_absorb P g genome f nm s (d0 + 1) hs])
        (fun nm s hs => by
          dsimp only
          obtain ⟨h1, h2⟩ := ih f'' (by omega) nm s (d0 + 1) hs
          exact ⟨h1, fun hvv => by rw [h2 hvv]⟩)
        (gtmChosen g genome root st.index)
        { st with nodes := st.nodes + 1, index := st.index + 1 }
        { st with nodes := st.nodes + 1, index := st.index + 1 }
        (Nat.le_refl _) (fun _ => rfl)
      exact gtmPost_rel P P' hD g _ _ _ _ hsyms.1 hsyms.2
    · have eL : genome_tree_map P g genome (f + 1) root st d0 =
          ({ st with invalid := true }, d0) := by
        rw [genome_tree_map, if_neg hg]
      rw [eL]
      constructor
      · exact gtm_maxDepth_ge P' g genome f' root st d0
      · intro h
        exact absurd h (by simp)

/-- The Fast-Queue iteration budget is monotone in the wrap budget. -/
theorem fqFuel_mono (P P' : Ps) (g : Grammar) (genome : List Nat)
    (hW : P.max_wraps ≤ P'.max_wraps) :
    fqFuel P g genome ≤ fqFuel P' g genome := by
  unfold fqFuel
  apply Nat.add_le_add_right
  apply Nat.mul_le_mul_right
  exact Nat.add_le_add_right (Nat.mul_le_mul_left _ (by omega)) 2

/-- The Position-Independent iteration budget is monotone in the two
limits. -/
theorem piFuel_mono (P P' : Ps) (g : Grammar) (genome : List Nat)
    (hW : P.max_wraps ≤ P'.max_wraps)
    (hD : P.max_tree_depth ≤ P'.max_tree_depth) :
    piFuel P g genome ≤ piFuel P' g genome := by
  unfold piFuel
  have hb : 1 ≤ (maxRhsLen g + 2) * (genome.length + 2) :=
    Nat.one_le_iff_ne_zero.mpr (Nat.mul_ne_zero (by omega) (by omega))
  exact Nat.pow_le_pow_right hb (by omega)

/-- The tree recursion budget is monotone in the wrap budget. -/
theorem gtmFuel_mono (P P' : Ps) (genome : List Nat)
    (hW : P.max_wraps ≤ P'.max_wraps) :
    gtmFuel P genome ≤ gtmFuel P' genome := by
  unfold gtmFuel
  exact Nat.add_le_add_right (Nat.mul_le_mul_left _ (by omega)) 2

/-- The reported `maxDepth` of the Fast-Queue strategy is the final
loop state's running maximum depth. -/
theorem map_ind_maxDepth (P : Ps) (pf : String → String) (g : Grammar)
    (genome : List Nat) :
    (map_ind_from_genome P pf g genome).maxDepth =
      (fqLoop P g genome (fqFuel P g genome) (fqInit g)).maxDepth := by
  by_cases h : (fqLoop P g genome (fqFuel P g genome) (fqInit g)).queue.isEmpty <;>
    simp [map_ind_from_genome, h]

/-- The reported `maxDepth` of the Position-Independent strategy is the
final loop state's running maximum depth. -/
theorem map_PI_maxDepth (P : Ps) (pf : String → String) (g : Grammar)
    (genome : List Nat) :
    (map_PI_ind_from_genome P pf g genome).maxDepth =
      (piLoop P g genome (piFuel P g genome) (piInit g)).maxDepth := by
  by_cases h : (piLoop P g genome (piFuel P g genome) (piInit g)).mask.isEmpty <;>
    simp [map_PI_ind_from_genome, h]

/-- The reported `maxDepth` of the Tree-Building strategy is the final
recursion state's running maximum depth. -/
theorem map_tree_maxDepth (P : Ps) (pf : String → String) (g : Grammar)
    (genome : List Nat) :
    (map_tree_from_genome P pf g genome).maxDepth =
      (genome_tree_map P g genome (gtmFuel P genome) g.start_rule.text
        { output := [], index := 0, nodes := 0, maxDepth := 0, invalid := false }
        0).1.maxDepth := by
  by_cases h : (genome_tree_map P g genome (gtmFuel P genome) g.start_rule.text
      { output := [], index := 0, nodes := 0, maxDepth := 0, invalid := false }
      0).1.invalid <;>
    simp [map_tree_from_genome, h]

/-- Claim C7 (confirmed): for every genome, grammar and forward
strategy, raising `max_wraps` (all else fixed) never turns a valid
result invalid — equivalently, lowering it never turns an invalid result
valid — and the reported `max_depth` is non-decreasing as the two limits
increase together. -/
theorem mapping_monotone_in_limits (D D' W W' : Nat) (go pim : Bool)
    (pf : String → String) (g : Grammar) (genome : List Nat)
    (hW : W ≤ W') (hD : D ≤ D') :
    ((map_ind_from_genome ⟨D, W, go, pim⟩ pf g genome).invalid = false →
      (map_ind_from_genome ⟨D, W', go, pim⟩ pf g genome).invalid = false) ∧
    ((map_PI_ind_from_genome ⟨D, W, go, pim⟩ pf g genome).invalid = false →
      (map_PI_ind_from_genome ⟨D, W', go, pim⟩ pf g genome).invalid = false) ∧
    ((map_tree_from_genome ⟨D, W, go, pim⟩ pf g genome).invalid = false →
      (map_tree_from_genome ⟨D, W', go, pim⟩ pf g genome).invalid = false) ∧
    (map_ind_from_genome ⟨D, W, go, pim⟩ pf g genome).maxDepth ≤
      (map_ind_from_genome ⟨D', W', go, pim⟩ pf g genome).maxDepth ∧
    (map_PI_ind_from_genome ⟨D, W, go, pim⟩ pf g genome).maxDepth ≤
      (map_PI_ind_from_genome ⟨D', W', go, pim⟩ pf g genome).maxDepth ∧
    (map_tree_from_genome ⟨D, W, go, pim⟩ pf g genome).maxDepth ≤
      (map_tree_from_genome ⟨D', W', go, pim⟩ pf g genome).maxDepth := by
  refine ⟨?_, ?_, ?_, ?_, ?_, ?_⟩
  · -- Fast-Queue, invalid monotone in the wrap budget
    intro h
    have hq : (fqLoop ⟨D, W, go, pim⟩ g genome
        (fqFuel ⟨D, W, go, pim⟩ g genome) (fqInit g)).queue = [] := by
      by_cases hqq : (fqLoop ⟨D, W, go, pim⟩ g genome
          (fqFuel ⟨D, W, go, pim⟩ g genome) (fqInit g)).queue.isEmpty
      · exact List.isEmpty_iff.mp hqq
      · exfalso; simp [map_ind_from_genome, hqq] at h
    have hext := fqLoop_done_ext ⟨D, W, go, pim⟩ ⟨D, W', go, pim⟩ g genome hW
      (Nat.le_refl D)
      (fqFuel ⟨D, W, go, pim⟩ g genome) (fqFuel ⟨D, W', go, pim⟩ g genome)
      (fqFuel_mono _ _ g genome hW) (fqInit g) hq
    rw [map_ind_from_genome, hext]
    simp [hq]
  · -- Position-Independent, invalid monotone in the wrap budget
    intro h
    have hq : (piLoop ⟨D, W, go, pim⟩ g genome
        (piFuel ⟨D, W, go, pim⟩ g genome) (piInit g)).mask = [] := by
      by_cases hqq : (piLoop ⟨D, W, go, pim⟩ g genome
          (piFuel ⟨D, W, go, pim⟩ g genome) (piInit g)).mask.isEmpty
      · exact List.isEmpty_iff.mp hqq
      · exfalso; simp [map_PI_ind_from_genome, hqq] at h
    have hext := piLoop_done_ext ⟨D, W, go, pim⟩ ⟨D, W', go, pim⟩ g genome hW
      (Nat.le_refl D)
      (piFuel ⟨D, W, go, pim⟩ g genome) (piFuel ⟨D, W', go, pim⟩ g genome)
      (piFuel_mono _ _ g genome hW (Nat.le_refl D)) (piInit g) hq
    rw [map_PI_ind_from_genome, hext]
    simp [hq]
  · -- Tree-Building, invalid monotone in the wrap budget
    intro h
    have hi : (genome_tree_map ⟨D, W, go, pim⟩ g genome
        (gtmFuel ⟨D, W, go, pim⟩ genome) g.start_rule.text
        { output := [], index := 0, nodes := 0, maxDepth := 0, invalid := false }
        0).1.invalid = false := by
      by_cases hqq : (genome_tree_map ⟨D, W, go, pim⟩ g genome
          (gtmFuel ⟨D, W, go, pim⟩ genome) g.start_rule.text
          { output := [], index := 0, nodes := 0, maxDepth := 0, invalid := false }
          0).1.invalid
      · exfalso; simp [map_tree_from_genome, hqq] at h
      · exact Bool.eq_false_iff.mpr hqq
    have hext := (gtm_rel g genome ⟨D, W, go, pim⟩ ⟨D, W', go, pim⟩ hW
      (Nat.le_refl D) (gtmFuel ⟨D, W, go, pim⟩ genome)
      (gtmFuel ⟨D, W', go, pim⟩ genome) (gtmFuel_mono _ _ genome hW)
      g.start_rule.text
      { output := [], index := 0, nodes := 0, maxDepth := 0, invalid := false }
      0 rfl).2 hi
    rw [map_tree_from_genome, hext]
    simp [hi]
  · -- Fast-Queue, maximum depth monotone in both limits
    rw [map_ind_maxDepth, map_ind_maxDepth]
    exact fqLoop_maxDepth_mono ⟨D, W, go, pim⟩ ⟨D', W', go, pim⟩ g genome hW hD
      (fqFuel ⟨D, W, go, pim⟩ g genome) (fqFuel ⟨D', W', go, pim⟩ g genome)
      (fqFuel_mono _ _ g genome hW) (fqInit g)
  · -- Position-Independent, maximum depth monotone in both limits
    rw [map_PI_maxDepth, map_PI_maxDepth]
    exact piLoop_maxDepth_mono ⟨D, W, go, pim⟩ ⟨D', W', go, pim⟩ g genome hW hD
      (piFuel ⟨D, W, go, pim⟩ g genome) (piFuel ⟨D', W', go, pim⟩ g genome)
      (piFuel_mono _ _ g genome hW hD) (piInit g)
  · -- Tree-Building, maximum depth monotone in both limits
    rw [map_tree_maxDepth, map_tree_maxDepth]
    exact (gtm_rel g genome ⟨D, W, go, pim⟩ ⟨D', W', go, pim⟩ hW hD
      (gtmFuel ⟨D, W, go, pim⟩ genome) (gtmFuel ⟨D', W', go, pim⟩ genome)
      (gtmFuel_mono _ _ genome hW) g.start_rule.text
      { output := [], index := 0, nodes := 0, maxDepth := 0, invalid := false }
      0 rfl).1

/-- Witness for `mapping_monotone_in_limits` at the concrete scenario
grammar and genome with limits `(10, 2)` relaxed to `(11, 3)`. -/
theorem mapping_monotone_in_limits_witness :
    (2 : Nat) ≤ 3 ∧ (10 : Nat) ≤ 11 ∧
    (((map_ind_from_genome ⟨10, 2, true, false⟩ id gAB [4, 7, 2]).invalid = false →
       (map_ind_from_genome ⟨10, 3, true, false⟩ id gAB [4, 7, 2]).invalid = false) ∧
     ((map_PI_ind_from_genome ⟨10, 2, true, false⟩ id gAB [4, 7, 2]).invalid = false →
       (map_PI_ind_from_genome ⟨10, 3, true, false⟩ id gAB [4, 7, 2]).invalid = false) ∧
     ((map_tree_from_genome ⟨10, 2, true, false⟩ id gAB [4, 7, 2]).invalid = false →
       (map_tree_from_genome ⟨10, 3, true, false⟩ id gAB [4, 7, 2]).invalid = false) ∧
     (map_ind_from_genome ⟨10, 2, true, false⟩ id gAB [4, 7, 2]).maxDepth ≤
       (map_ind_from_genome ⟨11, 3, true, false⟩ id gAB [4, 7, 2]).maxDepth ∧
     (map_PI_ind_from_genome ⟨10, 2, true, false⟩ id gAB [4, 7, 2]).maxDepth ≤
       (map_PI_ind_from_genome ⟨11, 3, true, false⟩ id gAB [4, 7, 2]).maxDepth ∧
     (map_tree_from_genome ⟨10, 2, true, false⟩ id gAB [4, 7, 2]).maxDepth ≤
       (map_tree_from_genome ⟨11, 3, true, false⟩ id gAB [4, 7, 2]).maxDepth) :=
  ⟨by decide, by decide,
   mapping_monotone_in_limits 10 11 2 3 true false id gAB [4, 7, 2]
     (by decide) (by decide)⟩

/-! ## Claim C1 -/

/-- `gtmPost` never changes the accumulated output. -/
theorem gtmPost_output (P : Ps) (g : Grammar) (chosen : List Sym) (st2 : MSt)
    (depth : Nat) : (gtmPost P g chosen st2 depth).1.output = st2.output := by
  unfold gtmPost
  dsimp only
  repeat' split
  all_goals rfl

/-- A valid `gtmPost` result certifies the incoming state was valid. -/
theorem gtmPost_valid_st2 (P : Ps) (g : Grammar) (chosen : List Sym) (st2 : MSt)
    (depth : Nat) (h : (gtmPost P g chosen st2 depth).1.invalid = false) :
    st2.invalid = false := by
  by_cases hv : st2.invalid = false
  · exact hv
  · exfalso
    unfold gtmPost at h
    dsimp only at h
    by_cases hk : (chosen.filter (fun sy => decide (sy.text ∈ g.non_terminals))).isEmpty
    · rw [if_pos hk, if_pos hk, if_neg hv] at h
      exact hv h
    · rw [if_neg hk, if_neg hk, if_neg hv] at h
      exact hv h

/-- A valid `gtmPost` result stays within the depth limit. -/
theorem gtmPost_valid_mdD (P : Ps) (g : Grammar) (chosen : List Sym) (st2 : MSt)
    (depth : Nat) (h : (gtmPost P g chosen st2 depth).1.invalid = false) :
    (gtmPost P g chosen st2 depth).1.maxDepth ≤ P.max_tree_depth := by
  have hv : st2.invalid = false := gtmPost_valid_st2 P g chosen st2 depth h
  unfold gtmPost at h ⊢
  dsimp only at h ⊢
  by_cases hk : (chosen.filter (fun sy => decide (sy.text ∈ g.non_terminals))).isEmpty
  · rw [if_pos hk, if_pos hk, if_pos hv] at h ⊢
    dsimp only at h ⊢
    simp only [decide_eq_false_iff_not, Nat.not_lt] at h
    exact h
  · rw [if_neg hk, if_neg hk, if_pos hv] at h ⊢
    dsimp only at h ⊢
    simp only [decide_eq_false_iff_not, Nat.not_lt] at h
    exact h

/-- A valid `gtmPost` result reaches at least the node's own depth
(plus the leaf-branch compensation when it applies). -/
theorem gtmPost_valid_md_ge (P : Ps) (g : Grammar) (chosen : List Sym) (st2 : MSt)
    (depth : Nat) (h : (gtmPost P g chosen st2 depth).1.invalid = false) :
    (if (chosen.filter (fun sy => decide (sy.text ∈ g.non_terminals))).isEmpty
     then depth + 1 else depth) ≤ (gtmPost P g chosen st2 depth).1.maxDepth := by
  have hv : st2.invalid = false := gtmPost_valid_st2 P g chosen st2 depth h
  unfold gtmPost
  dsimp only
  by_cases hk : (chosen.filter (fun sy => decide (sy.text ∈ g.non_terminals))).isEmpty
  · rw [if_pos hk, if_pos hk, if_pos hv]
    dsimp only
    split <;> omega
  · rw [if_neg hk, if_neg hk, if_pos hv]
    dsimp only
    split <;> omega

/-- A valid `genome_tree_map` result certifies a valid input state. -/
theorem gtm_valid_input (P : Ps) (g : Grammar) (genome : List Nat)
    (f : Nat) (root : String) (st : MSt) (d0 : Nat)
    (h : (genome_tree_map P g genome f root st d0).1.invalid = false) :
    st.invalid = false := by
  cases f with
  | zero => exact absurd h (by simp [genome_tree_map])
  | succ f =>
    by_cases hg : gtmGuard P genome st
    · exact hg.1
    · rw [genome_tree_map, if_neg hg] at h
      exact absurd h (by simp)

/-- A valid `genome_tree_map` result stays within the depth limit. -/
theorem gtm_valid_mdD (P : Ps) (g : Grammar) (genome : List Nat)
    (f : Nat) (root : String) (st : MSt) (d0 : Nat)
    (h : (genome_tree_map P g genome f root st d0).1.invalid = false) :
    (genome_tree_map P g genome f root st d0).1.maxDepth ≤ P.max_tree_depth := by
  cases f with
  | zero => exact absurd h (by simp [genome_tree_map])
  | succ f =>
    by_cases hg : gtmGuard P genome st
    · rw [genome_tree_map, if_pos hg] at h ⊢
      exact gtmPost_valid_mdD P g _ _ _ h
    · rw [genome_tree_map, if_neg hg] at h
      exact absurd h (by simp)

/-- A valid `genome_tree_map` result reaches at least the node's own
depth. -/
theorem gtm_valid_md_ge (P : Ps) (g : Grammar) (genome : List Nat)
    (f : Nat) (root : String) (st : MSt) (d0 : Nat)
    (h : (genome_tree_map P g genome f root st d0).1.invalid = false) :
    d0 + 1 ≤ (genome_tree_map P g genome f root st d0).1.maxDepth := by
  cases f with
  | zero => exact absurd h (by simp [genome_tree_map])
  | succ f =>
    by_cases hg : gtmGuard P genome st
    · rw [genome_tree_map, if_pos hg] at h ⊢
      dsimp only at h ⊢
      have h2 := gtmPost_valid_md_ge P g _ _ _ h
      split at h2 <;> omega
    · rw [genome_tree_map, if_neg hg] at h
      exact absurd h (by simp)

/-- `genome_tree_map` never decreases the genome index. -/
theorem gtm_index_ge (P : Ps) (g : Grammar) (genome : List Nat) :
    ∀ (f : Nat) (root : String) (st : MSt) (d0 : Nat),
      st.index ≤ (genome_tree_map P g genome f root st d0).1.index := by
  intro f
  induction f with
  | zero => intro root st d0; exact Nat.le_refl _
  | succ f ih =>
    intro root st d0
    rw [genome_tree_map]
    by_cases hg : gtmGuard P genome st
    · rw [if_pos hg]
      dsimp only
      rw [gtmPost_index]
      calc st.index ≤ st.index + 1 := Nat.le_succ _
      _ ≤ _ := gtmSyms_pres
          (fun nm s => (genome_tree_map P g genome f nm s (d0 + 1)).1)
          (fun s => st.index + 1 ≤ s.index)
          (fun nm s hs => le_trans hs (ih nm s (d0 + 1)))
          (fun s t hs => hs) _ _ (Nat.le_refl _)
    · rw [if_neg hg]

/-- Once the threaded state is invalid, the child loop keeps it
invalid (given the expansion absorbs invalid states). -/
theorem gtmSyms_invalid_mono (expand : String → MSt → MSt)
    (habs : ∀ nm s, s.invalid = true → (expand nm s).invalid = true) :
    ∀ (syms : List Sym) (st : MSt), st.invalid = true →
      (gtmSyms expand syms st).invalid = true :=
  fun syms st h => gtmSyms_pres expand (fun s => s.invalid = true)
    habs (fun s t hs => hs) syms st h

/-- A successful association-list lookup exhibits its entry. -/
theorem mem_of_lookup {α β : Type} [BEq α] [LawfulBEq α] :
    ∀ (ps : List (α × β)) (a : α) (b : β),
      List.lookup a ps = some b → (a, b) ∈ ps := by
  intro ps
  induction ps with
  | nil => intro a b h; exact absurd h (by simp [List.lookup])
  | cons p rest ih =>
    intro a b h
    rw [List.lookup] at h
    by_cases he : (a == p.1) = true
    · rw [he] at h
      dsimp only at h
      obtain rfl : p.2 = b := by injection h
      have ha : a = p.1 := eq_of_beq he
      rw [ha]
      exact List.mem_cons_self _ _
    · have he' : (a == p.1) = false := Bool.eq_false_iff.mpr he
      rw [he'] at h
      dsimp only at h
      exact List.mem_cons_of_mem _ (ih a b h)

/-- `List.getD` yields a list element or the default. -/
theorem getD_mem_or_default {α : Type} :
    ∀ (l : List α) (i : Nat) (d : α), l.getD i d ∈ l ∨ l.getD i d = d := by
  intro l
  induction l with
  | nil => intro i d; right; cases i <;> rfl
  | cons x xs ih =>
    intro i d
    cases i with
    | zero => left; exact List.mem_cons_self _ _
    | succ i =>
      rcases ih i d with h | h
      · left; exact List.mem_cons_of_mem _ h
      · right; exact h

/-- In a well-formed grammar every symbol of every selected production
is coherent. -/
theorem wf_chosen (g : Grammar) (genome : List Nat) (hWF : WF g)
    (root : String) (idx : Nat) :
    ∀ s ∈ gtmChosen g genome root idx, WFsym g s := by
  intro s hs
  unfold gtmChosen at hs
  dsimp only at hs
  rcases getD_mem_or_default (rulesOf g root)
      (genome.getD (idx % genome.length) 0 % (rulesOf g root).length) [] with
    hmem | hdef
  · rcases hl : List.lookup root g.rules with - | l
    · have hru : rulesOf g root = [] := by unfold rulesOf; rw [hl]; rfl
      rw [hru] at hmem
      exact absurd hmem (List.not_mem_nil _)
    · have hru : rulesOf g root = l := by unfold rulesOf; rw [hl]; rfl
      have hent := mem_of_lookup g.rules root l hl
      rw [hru] at hmem hs
      exact hWF.2 (root, l) hent _ hmem s hs
  · rw [hdef] at hs
    exact absurd hs (List.not_mem_nil s)

/-- The inner fold of `maxRhsLen` dominates its seed and every
production length it folds over. -/
theorem innerFold_facts (l : List (List Sym)) :
    ∀ a : Nat, a ≤ l.foldl (fun acc ch => max acc ch.length) a ∧
      ∀ ch ∈ l, ch.length ≤ l.foldl (fun acc ch => max acc ch.length) a := by
  induction l with
  | nil => intro a; exact ⟨Nat.le_refl _, fun ch h => absurd h (List.not_mem_nil _)⟩
  | cons x xs ih =>
    intro a
    constructor
    · exact le_trans (Nat.le_max_left a x.length) (ih (max a x.length)).1
    · intro ch hch
      rcases List.mem_cons.mp hch with rfl | hm
      · exact le_trans (Nat.le_max_right a ch.length) (ih (max a ch.length)).1
      · exact (ih (max a x.length)).2 ch hm

/-- Every production of the grammar is no longer than `maxRhsLen`. -/
theorem maxRhsLen_bound (g : Grammar) :
    ∀ p ∈ g.rules, ∀ ch ∈ p.2, ch.length ≤ maxRhsLen g := by
  unfold maxRhsLen
  suffices h : ∀ (rs : List (String × List (List Sym))) (a : Nat),
      a ≤ rs.foldl (fun acc p => p.2.foldl (fun a ch => max a ch.length) acc) a ∧
      ∀ p ∈ rs, ∀ ch ∈ p.2, ch.length ≤
        rs.foldl (fun acc p => p.2.foldl (fun a ch => max a ch.length) acc) a by
    intro p hp ch hch
    exact (h g.rules 0).2 p hp ch hch
  intro rs
  induction rs with
  | nil => intro a; exact ⟨Nat.le_refl _, fun p h => absurd h (List.not_mem_nil _)⟩
  | cons r rest ih =>
    intro a
    constructor
    · exact le_trans (innerFold_facts r.2 a).1 (ih _).1
    · intro p hp ch hch
      rcases List.mem_cons.mp hp with rfl | hm
      · exact le_trans ((innerFold_facts p.2 a).2 ch hch) (ih _).1
      · exact (ih _).2 p hm ch hch

/-- A selected production is no longer than `maxRhsLen`. -/
theorem chosen_length_le (g : Grammar) (genome : List Nat) (root : String)
    (idx : Nat) : (gtmChosen g genome root idx).length ≤ maxRhsLen g := by
  unfold gtmChosen
  dsimp only
  rcases getD_mem_or_default (rulesOf g root)
      (genome.getD (idx % genome.length) 0 % (rulesOf g root).length) [] with
    hmem | hdef
  · rcases hl : List.lookup root g.rules with - | l
    · have hru : rulesOf g root = [] := by unfold rulesOf; rw [hl]; rfl
      rw [hru] at hmem
      exact absurd hmem (List.not_mem_nil _)
    · have hru : rulesOf g root = l := by unfold rulesOf; rw [hl]; rfl
      have hent := mem_of_lookup g.rules root l hl
      rw [hru] at hmem
      rw [hru]
      exact maxRhsLen_bound g (root, l) hent _ hmem
  · rw [hdef]
    exact Nat.zero_le _

/-- In a well-formed grammar, a production with only terminal-tagged
symbols has no child whose root text is a non-terminal name. -/
theorem wf_all_terminal_filter (g : Grammar) (chosen : List Sym)
    (hwf : ∀ s ∈ chosen, WFsym g s) (hT : ∀ s ∈ chosen, s.isNT = false) :
    chosen.filter (fun sy => decide (sy.text ∈ g.non_terminals)) = [] := by
  rw [List.filter_eq_nil]
  intro a ha
  simp only [decide_eq_true_eq]
  intro hmem
  have h1 := (hwf a ha).mpr hmem
  rw [hT a ha] at h1
  exact Bool.false_ne_true h1

/-- The child loop never lowers the maximum depth, given the expansion
does not. -/
theorem gtmSyms_md_ge (expand : String → MSt → MSt)
    (hmono : ∀ nm s, s.maxDepth ≤ (expand nm s).maxDepth) :
    ∀ (syms : List Sym) (st : MSt),
      st.maxDepth ≤ (gtmSyms expand syms st).maxDepth :=
  fun syms st => gtmSyms_pres expand (fun s => st.maxDepth ≤ s.maxDepth)
    (fun nm s hs => le_trans hs (hmono nm s)) (fun s t hs => hs) syms st
    (Nat.le_refl _)

/-- The child loop never lowers the genome index, given the expansion
does not. -/
theorem gtmSyms_index_ge (expand : String → MSt → MSt)
    (hmono : ∀ nm s, s.index ≤ (expand nm s).index) :
    ∀ (syms : List Sym) (st : MSt),
      st.index ≤ (gtmSyms expand syms st).index :=
  fun syms st => gtmSyms_pres expand (fun s => st.index ≤ s.index)
    (fun nm s hs => le_trans hs (hmono nm s)) (fun s t hs => hs) syms st
    (Nat.le_refl _)

/-- If a non-terminal-tagged symbol occurs among the children and the
child loop ends valid, the final maximum depth reaches the children's
depth bound `c`. -/
theorem gtmSyms_md_of_nt (expand : String → MSt → MSt) (c : Nat)
    (habs : ∀ nm s, s.invalid = true → (expand nm s).invalid = true)
    (hvc : ∀ nm s, (expand nm s).invalid = false → c ≤ (expand nm s).maxDepth)
    (hmono : ∀ nm s, s.maxDepth ≤ (expand nm s).maxDepth) :
    ∀ (syms : List Sym) (st : MSt) (nm : String), Sym.NT nm ∈ syms →
      (gtmSyms expand syms st).invalid = false →
      c ≤ (gtmSyms expand syms st).maxDepth := by
  intro syms
  induction syms with
  | nil => intro st nm hmem; exact absurd hmem (List.not_mem_nil _)
  | cons x rest ih =>
    intro st nm hmem hval
    cases x with
    | T t =>
      have hm2 : Sym.NT nm ∈ rest := by
        rcases List.mem_cons.mp hmem with he | hm
        · exact absurd he (by simp)
        · exact hm
      rw [gtmSyms] at hval ⊢
      exact ih _ nm hm2 hval
    | NT nm' =>
      rw [gtmSyms] at hval ⊢
      have hv' : (expand nm' st).invalid = false := by
        by_cases hvv : (expand nm' st).invalid = false
        · exact hvv
        · exfalso
          have := gtmSyms_invalid_mono expand habs rest (expand nm' st)
            (Bool.ne_false_iff.mp hvv)
          rw [hval] at this
          exact Bool.false_ne_true this
      exact le_trans (hvc nm' st hv')
        (gtmSyms_md_ge expand hmono rest (expand nm' st))

/-- Iteration of the Fast-Queue loop splits over fuel addition. -/
theorem fqLoop_add (P : Ps) (g : Grammar) (genome : List Nat) :
    ∀ (a b : Nat) (s : FqSt),
      fqLoop P g genome (a + b) s =
        fqLoop P g genome b (fqLoop P g genome a s) := by
  intro a
  induction a with
  | zero => intro b s; rw [Nat.zero_add]; rfl
  | succ a ih =>
    intro b s
    have hrw : a + 1 + b = (a + b) + 1 := by omega
    rw [hrw]
    by_cases hc : fqCond P s = true
    · have e1 : fqLoop P g genome ((a + b) + 1) s =
          fqLoop P g genome (a + b) (fqStep g genome s) := by
        rw [fqLoop, if_pos hc]
      have e2 : fqLoop P g genome (a + 1) s =
          fqLoop P g genome a (fqStep g genome s) := by
        rw [fqLoop, if_pos hc]
      rw [e1, e2, ih]
    · have hcf := Bool.eq_false_iff.mpr hc
      rw [fqLoop_halt P g genome ((a + b) + 1) s hcf,
        fqLoop_halt P g genome (a + 1) s hcf,
        fqLoop_halt P g genome b s hcf]

/-- Lockstep simulation of the child loop by the Fast-Queue loop on a
wrap-free, depth-safe run.  `expand` is the tree-side expansion of one
non-terminal at parent depth `dn`; `hsim` is the node-level simulation
(supplied by the induction on fuel); `C` bounds the depths the children
can reach.  The Fast-Queue loop, started with the children as pending
items in front of `rest`, consumes them in some number `k` of steps,
reaching exactly the child loop's final index and output with the wrap
counter untouched. -/
theorem fq_sim_syms (P : Ps) (g : Grammar) (genome : List Nat)
    (expand : String → MSt → MSt) (dn : Nat) (C : Nat)
    (habs : ∀ nm s, s.invalid = true → (expand nm s).invalid = true)
    (hidxm : ∀ nm s, s.index ≤ (expand nm s).index)
    (hmdm : ∀ nm s, s.maxDepth ≤ (expand nm s).maxDepth)
    (hsim : ∀ (root : String) (st : MSt) (rest : List (Sym × Nat)) (mdq nq : Nat),
      st.invalid = false → (expand root st).invalid = false →
      (expand root st).index < genome.length →
      mdq ≤ P.max_tree_depth →
      ∃ k mdq2 nq2,
        k ≤ ((expand root st).index - st.index) * (maxRhsLen g + 1) + 1 ∧
        mdq2 ≤ max mdq (expand root st).maxDepth ∧
        fqLoop P g genome k
          ⟨st.index, mdq, nq, -1, st.output, (Sym.NT root, dn + 1) :: rest⟩ =
          ⟨(expand root st).index, mdq2, nq2, -1, (expand root st).output, rest⟩)
    (hdn : dn + 1 ≤ C) (hCD : C ≤ P.max_tree_depth) :
    ∀ (syms : List Sym) (st : MSt) (rest : List (Sym × Nat)) (mdq nq : Nat),
      st.invalid = false →
      (gtmSyms expand syms st).invalid = false →
      (gtmSyms expand syms st).index < genome.length →
      (gtmSyms expand syms st).maxDepth ≤ C →
      mdq ≤ P.max_tree_depth →
      ∃ k mdq2 nq2,
        k ≤ ((gtmSyms expand syms st).index - st.index) * (maxRhsLen g + 1) +
          syms.length ∧
        mdq2 ≤ max mdq C ∧
        fqLoop P g genome k
          ⟨st.index, mdq, nq, -1, st.output,
            syms.map (fun sy => (sy, dn + 1)) ++ rest⟩ =
          ⟨(gtmSyms expand syms st).index, mdq2, nq2, -1,
            (gtmSyms expand syms st).output, rest⟩ := by
  intro syms
  induction syms with
  | nil =>
    intro st rest mdq nq _ _ _ _ _
    exact ⟨0, mdq, nq, Nat.zero_le _, le_max_left _ _, rfl⟩
  | cons x rest' ih =>
    intro st rest mdq nq hv hval hidxlt hmdC hmdq
    cases x with
    | T t =>
      rw [gtmSyms] at hval hidxlt hmdC ⊢
      have hsti : st.index < genome.length :=
        lt_of_le_of_lt
          (gtmSyms_index_ge expand hidxm rest' { st with output := st.output ++ [t] })
          hidxlt
      have hnofire : ¬ (st.index % genome.length = 0 ∧ 0 < st.index ∧
          (((Sym.T t, dn + 1) ::
            (rest'.map (fun sy => (sy, dn + 1)) ++ rest)).any
            (fun it => it.1.isNT)) = true) := by
        rintro ⟨hmod, hpos, -⟩
        rw [Nat.mod_eq_of_lt hsti] at hmod
        omega
      have hcond : fqCond P
          ⟨st.index, mdq, nq, -1, st.output,
            (Sym.T t, dn + 1) :: (rest'.map (fun sy => (sy, dn + 1)) ++ rest)⟩ =
          true := by
        simp only [fqCond, Bool.and_eq_true, decide_eq_true_eq]
        exact ⟨⟨by omega, by simp⟩, hmdq⟩
      have estep : fqStep g genome
          ⟨st.index, mdq, nq, -1, st.output,
            (Sym.T t, dn + 1) :: (rest'.map (fun sy => (sy, dn + 1)) ++ rest)⟩ =
          ⟨st.index, (if mdq < dn + 1 then dn + 1 else mdq), nq, -1,
            st.output ++ [t], rest'.map (fun sy => (sy, dn + 1)) ++ rest⟩ := by
        simp only [fqStep]
        rw [if_neg hnofire]
      obtain ⟨k₂, mdq2, nq2, hk2, hm2, heq2⟩ :=
        ih { st with output := st.output ++ [t] } rest
          (if mdq < dn + 1 then dn + 1 else mdq) nq hv hval hidxlt hmdC
          (by split <;> omega)
      refine ⟨1 + k₂, mdq2, nq2, ?_, ?_, ?_⟩
      · have hle : st.index ≤ (gtmSyms expand rest'
            { st with output := st.output ++ [t] }).index :=
          gtmSyms_index_ge expand hidxm rest'
            { st with output := st.output ++ [t] }
        dsimp only at hk2
        simp only [List.length_cons]
        omega
      · have h1 : (if mdq < dn + 1 then dn + 1 else mdq) ≤ max mdq C := by
          rcases Nat.le_total mdq (max mdq C) with - | -
          · split
            · exact le_trans hdn (le_max_right _ _)
            · exact le_max_left _ _
          · split
            · exact le_trans hdn (le_max_right _ _)
            · exact le_max_left _ _
        calc mdq2 ≤ max (if mdq < dn + 1 then dn + 1 else mdq) C := hm2
        _ ≤ max (max mdq C) C := max_le_max h1 (Nat.le_refl C)
        _ = max mdq C := by rw [max_assoc, max_self]
      · rw [List.map_cons, List.cons_append, fqLoop_add P g genome 1 k₂]
        have e1 : fqLoop P g genome 1
            ⟨st.index, mdq, nq, -1, st.output,
              (Sym.T t, dn + 1) :: (rest'.map (fun sy => (sy, dn + 1)) ++ rest)⟩ =
            fqStep g genome
              ⟨st.index, mdq, nq, -1, st.output,
                (Sym.T t, dn + 1) :: (rest'.map (fun sy => (sy, dn + 1)) ++ rest)⟩ := by
          rw [fqLoop, if_pos hcond]
          rfl
        rw [e1, estep]
        exact heq2
    | NT nm =>
      rw [gtmSyms] at hval hidxlt hmdC ⊢
      have hv' : (expand nm st).invalid = false := by
        by_cases hvv : (expand nm st).invalid = false
        · exact hvv
        · exfalso
          have h0 := gtmSyms_invalid_mono expand habs rest' (expand nm st)
            (Bool.ne_false_iff.mp hvv)
          rw [hval] at h0
          exact Bool.false_ne_true h0
      have hexpidx : (expand nm st).index < genome.length :=
        lt_of_le_of_lt (gtmSyms_index_ge expand hidxm rest' (expand nm st)) hidxlt
      obtain ⟨k₁, mdqA, nqA, hk1, hm1, heq1⟩ :=
        hsim nm st (rest'.map (fun sy => (sy, dn + 1)) ++ rest) mdq nq hv hv'
          hexpidx hmdq
      have hemd : (expand nm st).maxDepth ≤ C :=
        le_trans (gtmSyms_md_ge expand hmdm rest' (expand nm st)) hmdC
      obtain ⟨k₂, mdq2, nq2, hk2, hm2, heq2⟩ :=
        ih (expand nm st) rest mdqA nqA hv' hval hidxlt hmdC
          (by
            calc mdqA ≤ max mdq (expand nm st).maxDepth := hm1
            _ ≤ P.max_tree_depth := max_le hmdq (le_trans hemd hCD))
      refine ⟨k₁ + k₂, mdq2, nq2, ?_, ?_, ?_⟩
      · have hle1 : st.index ≤ (expand nm st).index := hidxm nm st
        have hle2 : (expand nm st).index ≤
            (gtmSyms expand rest' (expand nm st)).index :=
          gtmSyms_index_ge expand hidxm rest' _
        have hsum : ((expand nm st).index - st.index) +
            ((gtmSyms expand rest' (expand nm st)).index - (expand nm st).index) =
            (gtmSyms expand rest' (expand nm st)).index - st.index := by omega
        have hmul : ((gtmSyms expand rest' (expand nm st)).index - st.index) *
            (maxRhsLen g + 1) =
            ((expand nm st).index - st.index) * (maxRhsLen g + 1) +
            ((gtmSyms expand rest' (expand nm st)).index - (expand nm st).index) *
              (maxRhsLen g + 1) := by
          rw [← Nat.add_mul, hsum]
        rw [hmul]
        simp only [List.length_cons]
        omega
      · calc mdq2 ≤ max mdqA C := hm2
        _ ≤ max (max mdq (expand nm st).maxDepth) C := max_le_max hm1 (Nat.le_refl C)
        _ ≤ max (max mdq C) C :=
          max_le_max (max_le_max (Nat.le_refl mdq) hemd) (Nat.le_refl C)
        _ = max mdq C := by rw [max_assoc, max_self]
      · rw [List.map_cons, List.cons_append, fqLoop_add P g genome k₁ k₂]
        rw [heq1]
        exact heq2

/-- Node-level simulation of the Tree-Building recursion by the
Fast-Queue loop on a wrap-free run: if expanding `root` from state `st`
completes without invalidation and without exhausting the genome once,
then from the matching Fast-Queue state (pending item `(root, d0 + 1)`
in front of `rest`, wrap counter at `-1`) some `k` loop iterations
consume exactly the recursion's codons, emit exactly its output, keep
the wrap counter at `-1`, and leave `rest` pending; the running maximum
depth stays below the recursion's final maximum depth. -/
theorem fq_sim (P : Ps) (g : Grammar) (genome : List Nat) (hWF : WF g) :
    ∀ (f : Nat) (root : String) (st : MSt) (d0 : Nat)
      (rest : List (Sym × Nat)) (mdq nq : Nat),
      st.invalid = false →
      (genome_tree_map P g genome f root st d0).1.invalid = false →
      (genome_tree_map P g genome f root st d0).1.index < genome.length →
      mdq ≤ P.max_tree_depth →
      ∃ k mdq2 nq2,
        k ≤ ((genome_tree_map P g genome f root st d0).1.index - st.index) *
            (maxRhsLen g + 1) + 1 ∧
        mdq2 ≤ max mdq (genome_tree_map P g genome f root st d0).1.maxDepth ∧
        fqLoop P g genome k
          ⟨st.index, mdq, nq, -1, st.output, (Sym.NT root, d0 + 1) :: rest⟩ =
          ⟨(genome_tree_map P g genome f root st d0).1.index, mdq2, nq2, -1,
            (genome_tree_map P g genome f root st d0).1.output, rest⟩ := by
  intro f
  induction f with
  | zero =>
    intro root st d0 rest mdq nq hv hval
    exact absurd hval (by simp [genome_tree_map])
  | succ f ih =>
    intro root st d0 rest mdq nq hv hval hidx hmdq
    have hg : gtmGuard P genome st := by
      by_cases hgg : gtmGuard P genome st
      · exact hgg
      · rw [genome_tree_map, if_neg hgg] at hval
        exact absurd hval (by simp)
    have er : genome_tree_map P g genome (f + 1) root st d0 =
        gtmPost P g (gtmChosen g genome root st.index)
          (gtmSyms (fun nm s => (genome_tree_map P g genome f nm s (d0 + 1)).1)
            (gtmChosen g genome root st.index)
            { st with nodes := st.nodes + 1, index := st.index + 1 }) (d0 + 1) := by
      rw [genome_tree_map, if_pos hg]
    rw [er] at hval hidx ⊢
    rw [gtmPost_index] at hidx
    rw [gtmPost_index, gtmPost_output]
    have habs : ∀ nm s, s.invalid = true →
        (genome_tree_map P g genome f nm s (d0 + 1)).1.invalid = true := by
      intro nm s hs
      rw [gtm_invalid_absorb P g genome f nm s (d0 + 1) hs]
    have hidxm : ∀ nm s,
        s.index ≤ (genome_tree_map P g genome f nm s (d0 + 1)).1.index :=
      fun nm s => gtm_index_ge P g genome f nm s (d0 + 1)
    have hmdm : ∀ nm s,
        s.maxDepth ≤ (genome_tree_map P g genome f nm s (d0 + 1)).1.maxDepth :=
      fun nm s => gtm_maxDepth_ge P g genome f nm s (d0 + 1)
    have hst2v := gtmPost_valid_st2 P g (gtmChosen g genome root st.index)
      (gtmSyms (fun nm s => (genome_tree_map P g genome f nm s (d0 + 1)).1)
        (gtmChosen g genome root st.index)
        { st with nodes := st.nodes + 1, index := st.index + 1 }) (d0 + 1) hval
    have hrmdD := gtmPost_valid_mdD P g (gtmChosen g genome root st.index)
      (gtmSyms (fun nm s => (genome_tree_map P g genome f nm s (d0 + 1)).1)
        (gtmChosen g genome root st.index)
        { st with nodes := st.nodes + 1, index := st.index + 1 }) (d0 + 1) hval
    have hC := gtmPost_maxDepth_ge P g (gtmChosen g genome root st.index)
      (gtmSyms (fun nm s => (genome_tree_map P g genome f nm s (d0 + 1)).1)
        (gtmChosen g genome root st.index)
        { st with nodes := st.nodes + 1, index := st.index + 1 }) (d0 + 1)
    have hd02 : d0 + 2 ≤ (gtmPost P g (gtmChosen g genome root st.index)
        (gtmSyms (fun nm s => (genome_tree_map P g genome f nm s (d0 + 1)).1)
          (gtmChosen g genome root st.index)
          { st with nodes := st.nodes + 1, index := st.index + 1 })
        (d0 + 1)).1.maxDepth := by
      by_cases hnt : ∀ sy ∈ gtmChosen g genome root st.index, sy.isNT = false
      · have hfe := wf_all_terminal_filter g (gtmChosen g genome root st.index)
          (wf_chosen g genome hWF root st.index) hnt
        have h2 := gtmPost_valid_md_ge P g (gtmChosen g genome root st.index)
          (gtmSyms (fun nm s => (genome_tree_map P g genome f nm s (d0 + 1)).1)
            (gtmChosen g genome root st.index)
            { st with nodes := st.nodes + 1, index := st.index + 1 }) (d0 + 1) hval
        rw [hfe] at h2
        simpa using h2
      · push_neg at hnt
        obtain ⟨sy, hsy, hsyne⟩ := hnt
        have hsyt : sy.isNT = true := Bool.ne_false_iff.mp hsyne
        cases sy with
        | T t => exact absurd hsyt (by simp [Sym.isNT])
        | NT nm' =>
          have h2 := gtmSyms_md_of_nt
            (fun nm s => (genome_tree_map P g genome f nm s (d0 + 1)).1)
            (d0 + 2) habs
            (fun nm s hvv => gtm_valid_md_ge P g genome f nm s (d0 + 1) hvv)
            hmdm (gtmChosen g genome root st.index)
            { st with nodes := st.nodes + 1, index := st.index + 1 } nm' hsy hst2v
          exact le_trans h2 hC
    have hst1le : st.index + 1 ≤ (gtmSyms
        (fun nm s => (genome_tree_map P g genome f nm s (d0 + 1)).1)
        (gtmChosen g genome root st.index)
        { st with nodes := st.nodes + 1, index := st.index + 1 }).index :=
      gtmSyms_index_ge (fun nm s => (genome_tree_map P g genome f nm s (d0 + 1)).1)
        hidxm (gtmChosen g genome root st.index)
        { st with nodes := st.nodes + 1, index := st.index + 1 }
    have hstidx : st.index < genome.length := by omega
    have hnofire : ¬ (st.index % genome.length = 0 ∧ 0 < st.index ∧
        (((Sym.NT root, d0 + 1) :: rest).any (fun it => it.1.isNT)) = true) := by
      rintro ⟨hmod, hpos, -⟩
      rw [Nat.mod_eq_of_lt hstidx] at hmod
      omega
    have hcond : fqCond P
        ⟨st.index, mdq, nq, -1, st.output, (Sym.NT root, d0 + 1) :: rest⟩ = true := by
      simp only [fqCond, Bool.and_eq_true, decide_eq_true_eq]
      exact ⟨⟨by omega, by simp⟩, hmdq⟩
    have estep : fqStep g genome
        ⟨st.index, mdq, nq, -1, st.output, (Sym.NT root, d0 + 1) :: rest⟩ =
        ⟨st.index + 1, (if mdq < d0 + 1 then d0 + 1 else mdq),
          nq + (if 0 < ((gtmChosen g genome root st.index).filter Sym.isNT).length
                then ((gtmChosen g genome root st.index).filter Sym.isNT).length
                else 1),
          -1, st.output,
          (gtmChosen g genome root st.index).map (fun sy => (sy, d0 + 1 + 1)) ++
            rest⟩ := by
      simp only [fqStep]
      rw [if_neg hnofire]
      rfl
    obtain ⟨k₂, mdq2, nq2, hk2, hm2, heq2⟩ :=
      fq_sim_syms P g genome
        (fun nm s => (genome_tree_map P g genome f nm s (d0 + 1)).1)
        (d0 + 1)
        ((gtmPost P g (gtmChosen g genome root st.index)
          (gtmSyms (fun nm s => (genome_tree_map P g genome f nm s (d0 + 1)).1)
            (gtmChosen g genome root st.index)
            { st with nodes := st.nodes + 1, index := st.index + 1 })
          (d0 + 1)).1.maxDepth)
        habs hidxm hmdm
        (fun root' s' rest' m' n' h1 h2 h3 h4 =>
          ih root' s' (d0 + 1) rest' m' n' h1 h2 h3 h4)
        hd02 hrmdD
        (gtmChosen g genome root st.index)
        { st with nodes := st.nodes + 1, index := st.index + 1 } rest
        (if mdq < d0 + 1 then d0 + 1 else mdq)
        (nq + (if 0 < ((gtmChosen g genome root st.index).filter Sym.isNT).length
               then ((gtmChosen g genome root st.index).filter Sym.isNT).length
               else 1))
        hv hst2v hidx hC (by split <;> omega)
    refine ⟨1 + k₂, mdq2, nq2, ?_, ?_, ?_⟩
    · have hchl := chosen_length_le g genome root st.index
      dsimp only at hk2
      have hmul : ((gtmSyms
            (fun nm s => (genome_tree_map P g genome f nm s (d0 + 1)).1)
            (gtmChosen g genome root st.index)
            { st with nodes := st.nodes + 1, index := st.index + 1 }).index -
              st.index) * (maxRhsLen g + 1) =
          ((gtmSyms
            (fun nm s => (genome_tree_map P g genome f nm s (d0 + 1)).1)
            (gtmChosen g genome root st.index)
            { st with nodes := st.nodes + 1, index := st.index + 1 }).index -
              (st.index + 1)) * (maxRhsLen g + 1) + (maxRhsLen g + 1) := by
        have he : (gtmSyms
              (fun nm s => (genome_tree_map P g genome f nm s (d0 + 1)).1)
              (gtmChosen g genome root st.index)
              { st with nodes := st.nodes + 1, index := st.index + 1 }).index -
                st.index =
            ((gtmSyms
              (fun nm s => (genome_tree_map P g genome f nm s (d0 + 1)).1)
              (gtmChosen g genome root st.index)
              { st with nodes := st.nodes + 1, index := st.index + 1 }).index -
                (st.index + 1)) + 1 := by omega
        rw [he, Nat.succ_mul]
      rw [hmul]
      omega
    · have hif : (if mdq < d0 + 1 then d0 + 1 else mdq) ≤
          max mdq ((gtmPost P g (gtmChosen g genome root st.index)
            (gtmSyms (fun nm s => (genome_tree_map P g genome f nm s (d0 + 1)).1)
              (gtmChosen g genome root st.index)
              { st with nodes := st.nodes + 1, index := st.index + 1 })
            (d0 + 1)).1.maxDepth) := by
        split
        · exact le_trans (by omega) (le_max_right _ _)
        · exact le_max_left _ _
      calc mdq2 ≤ _ := hm2
      _ ≤ _ := max_le_max hif (Nat.le_refl _)
      _ = max mdq ((gtmPost P g (gtmChosen g genome root st.index)
            (gtmSyms (fun nm s => (genome_tree_map P g genome f nm s (d0 + 1)).1)
              (gtmChosen g genome root st.index)
              { st with nodes := st.nodes + 1, index := st.index + 1 })
            (d0 + 1)).1.maxDepth) := by rw [max_assoc, max_self]
    · rw [fqLoop_add P g genome 1 k₂]
      have e1 : fqLoop P g genome 1
          ⟨st.index, mdq, nq, -1, st.output, (Sym.NT root, d0 + 1) :: rest⟩ =
          fqStep g genome
            ⟨st.index, mdq, nq, -1, st.output, (Sym.NT root, d0 + 1) :: rest⟩ := by
        rw [fqLoop, if_pos hcond]
        rfl
      rw [e1, estep]
      exact heq2

/-- The reported used-codons count of the Tree-Building strategy is the
final recursion state's genome index. -/
theorem map_tree_usedCodons (P : Ps) (pf : String → String) (g : Grammar)
    (genome : List Nat) :
    (map_tree_from_genome P pf g genome).usedCodons =
      (genome_tree_map P g genome (gtmFuel P genome) g.start_rule.text
        { output := [], index := 0, nodes := 0, maxDepth := 0, invalid := false }
        0).1.index := by
  by_cases h : (genome_tree_map P g genome (gtmFuel P genome) g.start_rule.text
      { output := [], index := 0, nodes := 0, maxDepth := 0, invalid := false }
      0).1.invalid <;>
    simp [map_tree_from_genome, h]

/-- The reported invalid flag of the Tree-Building strategy is the final
recursion state's invalid flag. -/
theorem map_tree_invalid_eq (P : Ps) (pf : String → String) (g : Grammar)
    (genome : List Nat) :
    (map_tree_from_genome P pf g genome).invalid =
      (genome_tree_map P g genome (gtmFuel P genome) g.start_rule.text
        { output := [], index := 0, nodes := 0, maxDepth := 0, invalid := false }
        0).1.invalid := by
  by_cases h : (genome_tree_map P g genome (gtmFuel P genome) g.start_rule.text
      { output := [], index := 0, nodes := 0, maxDepth := 0, invalid := false }
      0).1.invalid <;>
    simp [map_tree_from_genome, h]

/-- On a valid run, the Tree-Building strategy's phenotype joins the
recursion's terminal output (python-filtered when flagged). -/
theorem map_tree_phenotype_valid (P : Ps) (pf : String → String) (g : Grammar)
    (genome : List Nat)
    (h : (genome_tree_map P g genome (gtmFuel P genome) g.start_rule.text
      { output := [], index := 0, nodes := 0, maxDepth := 0, invalid := false }
      0).1.invalid = false) :
    (map_tree_from_genome P pf g genome).phenotype =
      some (if g.python_mode then
        pf (String.join (genome_tree_map P g genome (gtmFuel P genome)
          g.start_rule.text
          { output := [], index := 0, nodes := 0, maxDepth := 0, invalid := false }
          0).1.output)
      else
        String.join (genome_tree_map P g genome (gtmFuel P genome)
          g.start_rule.text
          { output := [], index := 0, nodes := 0, maxDepth := 0, invalid := false }
          0).1.output) := by
  simp [map_tree_from_genome, h]

/-- Claim C1 (counterexample): for the grammar `S → "a" S | "b"`, genome
`[1, 0]`, `max_wraps = 0` and `max_tree_depth = 1`, the Tree-Building
decoding completes without any wrap (1 used codon, below the genome
length 2), yet the Fast-Queue strategy returns `invalid = false` with
phenotype `"b"` while the Tree-Building strategy returns
`invalid = true` with an absent phenotype: the tree strategy's
leaf-branch depth compensation trips the depth limit after the
Fast-Queue loop has already drained its queue. -/
theorem strategy_agreement_violated :
    (map_tree_from_genome (mkPs 1 0) id gAB [1, 0]).usedCodons = 1 ∧
    (map_tree_from_genome (mkPs 1 0) id gAB [1, 0]).usedCodons <
      ([1, 0] : List Nat).length ∧
    (map_ind_from_genome (mkPs 1 0) id gAB [1, 0]).usedCodons = 1 ∧
    (map_ind_from_genome (mkPs 1 0) id gAB [1, 0]).invalid = false ∧
    (map_ind_from_genome (mkPs 1 0) id gAB [1, 0]).phenotype = some "b" ∧
    (map_tree_from_genome (mkPs 1 0) id gAB [1, 0]).invalid = true ∧
    (map_tree_from_genome (mkPs 1 0) id gAB [1, 0]).phenotype = none := by
  decide

/-- Claim C1 (corrected): for a well-formed grammar and every genome
whose Tree-Building decoding completes with `invalid = false` and
without any wrap (used codons strictly below the genome length), the
Fast-Queue strategy also returns `invalid = false` and the same
phenotype text.  (The unconditional two-way agreement of the original
claim fails at the depth-limit boundary, where only the Tree-Building
strategy's compensated depth accounting trips the limit.) -/
theorem strategy_agreement (P : Ps) (pf : String → String) (g : Grammar)
    (genome : List Nat) (hWF : WF g)
    (hval : (map_tree_from_genome P pf g genome).invalid = false)
    (hnw : (map_tree_from_genome P pf g genome).usedCodons < genome.length) :
    (map_ind_from_genome P pf g genome).invalid = false ∧
    (map_ind_from_genome P pf g genome).phenotype =
      (map_tree_from_genome P pf g genome).phenotype := by
  rw [map_tree_invalid_eq] at hval
  rw [map_tree_usedCodons] at hnw
  have hstart : g.start_rule = Sym.NT g.start_rule.text := by
    rcases hsr : g.start_rule with t | nm
    · have h1 := hWF.1
      rw [hsr] at h1
      exact absurd h1 (by simp [Sym.isNT])
    · rfl
  have hmd1 : 1 ≤ P.max_tree_depth := by
    have h1 := gtm_valid_md_ge P g genome (gtmFuel P genome) g.start_rule.text
      { output := [], index := 0, nodes := 0, maxDepth := 0, invalid := false } 0 hval
    have h2 := gtm_valid_mdD P g genome (gtmFuel P genome) g.start_rule.text
      { output := [], index := 0, nodes := 0, maxDepth := 0, invalid := false } 0 hval
    omega
  obtain ⟨k, mdq2, nq2, hk, hm, heq⟩ :=
    fq_sim P g genome hWF (gtmFuel P genome) g.start_rule.text
      { output := [], index := 0, nodes := 0, maxDepth := 0, invalid := false }
      0 [] 1 1 rfl hval hnw hmd1
  -- the chosen fuel dominates the simulated iteration count
  have hkF : k ≤ fqFuel P g genome := by
    have hidxle : (genome_tree_map P g genome (gtmFuel P genome) g.start_rule.text
        { output := [], index := 0, nodes := 0, maxDepth := 0, invalid := false }
        0).1.index ≤ genome.length - 1 := by omega
    have h1 : (genome_tree_map P g genome (gtmFuel P genome) g.start_rule.text
        { output := [], index := 0, nodes := 0, maxDepth := 0, invalid := false }
        0).1.index * (maxRhsLen g + 1) ≤
        (genome.length - 1) * (maxRhsLen g + 1) :=
      Nat.mul_le_mul_right _ hidxle
    have h2 : (genome.length - 1) * (maxRhsLen g + 1) ≤
        (genome.length * (P.max_wraps + 1) + 2) * (maxRhsLen g + 2) := by
      apply Nat.mul_le_mul
      · have h3 : genome.length * 1 ≤ genome.length * (P.max_wraps + 1) :=
          Nat.mul_le_mul_left _ (by omega)
        omega
      · omega
    unfold fqFuel
    simp only [Nat.sub_zero] at hk
    omega
  have hinit : fqInit g =
      ⟨0, 1, 1, -1, [], [(Sym.NT g.start_rule.text, 1)]⟩ := by
    unfold fqInit
    rw [← hstart]
  have hdone : fqLoop P g genome (fqFuel P g genome) (fqInit g) =
      ⟨(genome_tree_map P g genome (gtmFuel P genome) g.start_rule.text
        { output := [], index := 0, nodes := 0, maxDepth := 0, invalid := false }
        0).1.index, mdq2, nq2, -1,
        (genome_tree_map P g genome (gtmFuel P genome) g.start_rule.text
        { output := [], index := 0, nodes := 0, maxDepth := 0, invalid := false }
        0).1.output, []⟩ := by
    rw [hinit]
    have hsplit : fqFuel P g genome = k + (fqFuel P g genome - k) := by omega
    rw [hsplit, fqLoop_add]
    have heq' : fqLoop P g genome k
        ⟨0, 1, 1, -1, [], [(Sym.NT g.start_rule.text, 1)]⟩ =
        ⟨(genome_tree_map P g genome (gtmFuel P genome) g.start_rule.text
          { output := [], index := 0, nodes := 0, maxDepth := 0, invalid := false }
          0).1.index, mdq2, nq2, -1,
          (genome_tree_map P g genome (gtmFuel P genome) g.start_rule.text
          { output := [], index := 0, nodes := 0, maxDepth := 0, invalid := false }
          0).1.output, []⟩ := heq
    rw [heq']
    apply fqLoop_halt
    simp [fqCond]
  constructor
  · rw [map_ind_from_genome, hdone]
    simp
  · rw [map_ind_from_genome, hdone]
    rw [map_tree_phenotype_valid P pf g genome hval]
    simp

/-- Witness for `strategy_agreement` at the concrete scenario grammar
and genome. -/
theorem strategy_agreement_witness :
    WF gAB ∧
    (map_tree_from_genome (mkPs 10 2) id gAB [4, 7, 2]).invalid = false ∧
    (map_tree_from_genome (mkPs 10 2) id gAB [4, 7, 2]).usedCodons <
      ([4, 7, 2] : List Nat).length ∧
    ((map_ind_from_genome (mkPs 10 2) id gAB [4, 7, 2]).invalid = false ∧
     (map_ind_from_genome (mkPs 10 2) id gAB [4, 7, 2]).phenotype =
       (map_tree_from_genome (mkPs 10 2) id gAB [4, 7, 2]).phenotype) :=
  ⟨by decide, by decide, by decide,
   strategy_agreement (mkPs 10 2) id gAB [4, 7, 2] (by decide) (by decide)
     (by decide)⟩

end PonyGE